import Mathlib

/-!
Verification of the isochrone engine (graph building, nearest-node snapping,
cutoff Dijkstra with single-traversal threshold reuse, boundary synthesis,
and the orchestration/failure policy) against its natural-language
specification.  The Python sources are shallowly embedded: the networkx
cutoff Dijkstra (`single_source_dijkstra_path_length`) is modelled
operationally (lazy-deletion heap with a `seen` map, exactly the library's
relaxation and cutoff tests), shapely geometry operations are abstracted as
parameters together with a small model of shapely geometry objects
(`geom_type` / `is_empty` / `area` / `exterior` / `geoms`), and the code of
`network_utils.py`, `isochrone_utils.py`, `boundary_utils.py` and
`workflow.py` is translated function by function.
-/

set_option maxHeartbeats 1000000

/-! ### Association-list helpers (model of python dict lookup) -/

/-- Lookup in an association list, first match wins (python dict semantics:
`dist` only ever receives fresh keys, `seen` is updated by prepending). -/
def alookup {ν β : Type} [DecidableEq ν] (k : ν) : List (ν × β) → Option β
  | [] => none
  | (a, b) :: rest => if k = a then some b else alookup k rest

/-! ### The fringe: a binary heap of (distance, node) entries with an
insertion counter as tie break.  Entries are kept in push order; popping
takes the first entry with minimal distance, which is exactly what the
counter tie-break of the networkx heap produces. -/

/-- Pop the first minimal-distance entry from the fringe, returning it and
the remaining entries in order.  Models `heappop` on networkx's
`(distance, counter, node)` heap. -/
def pickMin {W ν : Type} [LinearOrder W] : List (W × ν) → Option ((W × ν) × List (W × ν))
  | [] => none
  | e :: rest =>
    match pickMin rest with
    | none => some (e, [])
    | some (m, rest') => if e.1 ≤ m.1 then some (e, rest) else some (m, e :: rest')

/-! ### The graph model (networkx `Graph` as used by the repository)

`network_utils.build_graph_from_roads` keys nodes by their exact coordinate
pair and stores the segment length on each undirected edge.  We model an
`nx.Graph` as an insertion-ordered node list plus an insertion-ordered
simple-edge list.  Edge weights live in an arbitrary linearly ordered
additive monoid `W`, the model of the nonnegative float lengths of the
source. -/

structure NXGraph (ν W : Type) where
  nodes : List ν
  edges : List (ν × ν × W)
deriving DecidableEq

/-- Neighbours of `v` with edge weights (model of `G_adj[v].items()` with
`weight = e["length"]`).  An undirected edge contributes to both endpoints;
a self loop contributes once, as in networkx. -/
def adjOf {ν W : Type} [DecidableEq ν] (g : NXGraph ν W) (v : ν) : List (ν × W) :=
  g.edges.filterMap fun e =>
    if e.1 = v then some (e.2.1, e.2.2)
    else if e.2.1 = v then some (e.1, e.2.2) else none

/-! ### networkx `_dijkstra` with cutoff, translated operationally

The fringe mirrors the `(distance, counter, node)` heap: entries are kept in
push order and `pickMin` removes the first minimal-distance entry, which is
what the counter tie-break produces.  `seen` is the tentative-distance dict;
`dist` is the finalized dict.  The relaxation performs exactly the
library's tests in order: `if vu_dist > cutoff: continue`, `if u in dist:
continue` (the contradictory-path check cannot fire for the nonnegative
lengths this repository stores), `elif u not in seen or vu_dist < seen[u]:
push`. -/

def relaxAll {ν W : Type} [DecidableEq ν] [LinearOrderedAddCommMonoid W]
    (cutoff : W) (dist : List (ν × W)) (dv : W)
    (nbrs : List (ν × W)) (fringe : List (W × ν)) (seen : List (ν × W)) :
    List (W × ν) × List (ν × W) :=
  match nbrs, fringe, seen with
  | [], fringe, seen => (fringe, seen)
  | (u, w) :: nbrs, fringe, seen =>
    let vu := dv + w
    if cutoff < vu then relaxAll cutoff dist dv nbrs fringe seen
    else if (alookup u dist).isSome then relaxAll cutoff dist dv nbrs fringe seen
    else
      match alookup u seen with
      | some su =>
        if vu < su then relaxAll cutoff dist dv nbrs (fringe ++ [(vu, u)]) ((u, vu) :: seen)
        else relaxAll cutoff dist dv nbrs fringe seen
      | none => relaxAll cutoff dist dv nbrs (fringe ++ [(vu, u)]) ((u, vu) :: seen)

/-- The main `while fringe:` loop.  The fuel argument only bounds the
number of iterations; `dijkstraFuel` below always suffices, so the
algorithm invariably stops because the fringe has drained. -/
def dijkstraLoop {ν W : Type} [DecidableEq ν] [LinearOrderedAddCommMonoid W]
    (adj : ν → List (ν × W)) (cutoff : W) :
    Nat → List (ν × W) → List (W × ν) → List (ν × W) → List (ν × W)
  | 0, dist, _, _ => dist
  | fuel + 1, dist, fringe, seen =>
    match pickMin fringe with
    | none => dist
    | some ((d, v), rest) =>
      if (alookup v dist).isSome then dijkstraLoop adj cutoff fuel dist rest seen
      else
        let dist' := dist ++ [(v, d)]
        let fs := relaxAll cutoff dist' d (adj v) rest seen
        dijkstraLoop adj cutoff fuel dist' fs.1 fs.2

/-- An upper bound on the number of loop iterations: one per fringe entry,
where at most `1 + degree v` entries are ever created per candidate node. -/
def dijkstraFuel {ν W : Type} (adj : ν → List (ν × W)) (cands : List ν) : Nat :=
  (cands.map fun v => 1 + (adj v).length).sum + 2

/-- Model of `nx.single_source_dijkstra_path_length(G, source, cutoff=c,
weight="length")`: finalized shortest-path distances in finalization order. -/
def single_source_dijkstra_path_length {ν W : Type} [DecidableEq ν]
    [LinearOrderedAddCommMonoid W] (g : NXGraph ν W) (source : ν) (cutoff : W) :
    List (ν × W) :=
  dijkstraLoop (adjOf g) cutoff (dijkstraFuel (adjOf g) (source :: g.nodes))
    [] [(0, source)] [(source, 0)]

/-! ### Declarative shortest-path distances -/

/-- A walk from `s` to `v` of total weight `c` in the adjacency structure. -/
inductive PathTo {ν W : Type} [AddCommMonoid W] (adj : ν → List (ν × W)) (s : ν) :
    ν → W → Prop where
  | refl : PathTo adj s s 0
  | tail {v u : ν} {c w : W} : PathTo adj s v c → (u, w) ∈ adj v → PathTo adj s u (c + w)

/-- `d` is the length of a shortest walk from `s` to `v`. -/
def IsShortestDist {ν W : Type} [AddCommMonoid W] [LE W]
    (adj : ν → List (ν × W)) (s v : ν) (d : W) : Prop :=
  PathTo adj s v d ∧ ∀ w, PathTo adj s v w → d ≤ w

/-! ### Threshold filtering (`compute_multi_distance_isochrones`) -/

/-- The node list `[n for n, dist in dists.items() if dist <= d]`. -/
def nodes_within {ν W : Type} [LinearOrder W] (dists : List (ν × W)) (d : W) : List ν :=
  (dists.filter fun p => decide (p.2 ≤ d)).map Prod.fst

/-- The distance map restricted to entries with `distance ≤ d` (the map
underlying `nodes_within`, keeping the distance values). -/
def filterLE {ν W : Type} [LinearOrder W] (dists : List (ν × W)) (d : W) :
    List (ν × W) :=
  dists.filter fun p => decide (p.2 ≤ d)

/-! ### Correctness of the embedded Dijkstra loop -/

/-- All adjacency weights are nonnegative (true of the Euclidean segment
lengths the repository stores on edges). -/
def NonnegAdj {ν W : Type} [AddCommMonoid W] [LE W] (adj : ν → List (ν × W)) : Prop :=
  ∀ v, ∀ p ∈ adj v, (0 : W) ≤ p.2

/-- Loop invariant for networkx `_dijkstra`, relative to a candidate node
pool `cands` that contains the source and every edge endpoint. -/
structure DInv {ν W : Type} [DecidableEq ν] [LinearOrderedAddCommMonoid W]
    (adj : ν → List (ν × W)) (cands : List ν) (s : ν) (cutoff : W)
    (dist : List (ν × W)) (fringe : List (W × ν)) (seen : List (ν × W)) : Prop where
  nodup : (dist.map Prod.fst).Nodup
  settled : ∀ v d, (v, d) ∈ dist →
    IsShortestDist adj s v d ∧ (d ≤ cutoff ∨ (v = s ∧ d = 0))
  fringeSound : ∀ e ∈ fringe,
    PathTo adj s e.2 e.1 ∧ (e.1 ≤ cutoff ∨ (e.2 = s ∧ e.1 = 0))
  start : (∃ d0, (s, d0) ∈ dist) ∨ ((0 : W), s) ∈ fringe
  frontier : ∀ v dv, (v, dv) ∈ dist → ∀ u w, (u, w) ∈ adj v →
    alookup u dist = none → dv + w ≤ cutoff →
    ∃ e ∈ fringe, e.2 = u ∧ e.1 ≤ dv + w
  seenInv : ∀ u su, alookup u seen = some su → alookup u dist = none →
    ∃ e ∈ fringe, e.2 = u ∧ e.1 ≤ su
  fringeCands : ∀ e ∈ fringe, e.2 ∈ cands

/-! ### Termination potential -/

/-- Remaining-work potential of a loop state: pending fringe entries plus,
for every candidate node not yet settled, the entries its settling could
still push (plus one for its own pop). -/
def phi {ν W : Type} [DecidableEq ν] (adj : ν → List (ν × W)) (cands : List ν)
    (dist : List (ν × W)) (fringe : List (W × ν)) : Nat :=
  fringe.length +
    ((cands.filter fun x => (alookup x dist).isNone).map
      fun x => 1 + (adj x).length).sum

/-! ### The characterization of the loop's result -/

/-- Full functional specification of the cutoff Dijkstra result: keys are
unique, and a node maps to `d` exactly when it is the source (always
recorded at distance `0`, whatever the cutoff) or `d` is its shortest-path
distance and lies within the cutoff. -/
def DijkstraSpec {ν W : Type} [DecidableEq ν] [LinearOrderedAddCommMonoid W]
    (adj : ν → List (ν × W)) (s : ν) (cutoff : W) (R : List (ν × W)) : Prop :=
  (R.map Prod.fst).Nodup ∧
  ∀ v d, alookup v R = some d ↔
    ((v = s ∧ d = 0) ∨ (IsShortestDist adj s v d ∧ d ≤ cutoff))

/-! ### `network_utils.build_graph_from_roads`

Road geometries are simple or multi-part line strings over exact planar
coordinates; `LineString([u, v]).length` (shapely, the Euclidean distance
of the two endpoints) is abstracted as the segment-length function
`segLen`. -/

inductive LineGeom (α : Type) : Type where
  | line (coords : List α)
  | multi (parts : List (List α))

/-- `geom.geoms if isinstance(geom, MultiLineString) else [geom]`. -/
def lineParts {α : Type} : LineGeom α → List (List α)
  | .line cs => [cs]
  | .multi ps => ps

/-- `zip(coords[:-1], coords[1:])`. -/
def consecPairs {α : Type} (cs : List α) : List (α × α) := cs.zip cs.tail

/-- Undirected match of a stored edge against the endpoint pair `(u, v)`. -/
def edgeMatches {α W : Type} [DecidableEq α] (u v : α) (e : α × α × W) : Bool :=
  decide ((e.1 = u ∧ e.2.1 = v) ∨ (e.1 = v ∧ e.2.1 = u))

/-- `G.add_node(u, x=..., y=...)` guarded by `if u not in G` (networkx
would also ignore a duplicate insertion since the attributes coincide with
the key). -/
def add_node {α W : Type} [DecidableEq α] (g : NXGraph α W) (v : α) : NXGraph α W :=
  if v ∈ g.nodes then g else ⟨g.nodes ++ [v], g.edges⟩

/-- `G.add_edge(u, v, length=w)` on the simple graph: endpoints are added
when missing, an existing parallel edge is updated in place, otherwise the
edge is appended. -/
def add_edge {α W : Type} [DecidableEq α] (g : NXGraph α W) (u v : α) (w : W) :
    NXGraph α W :=
  let g2 := add_node (add_node g u) v
  if g2.edges.any (edgeMatches u v) then
    ⟨g2.nodes, g2.edges.map fun e => if edgeMatches u v e then (e.1, e.2.1, w) else e⟩
  else ⟨g2.nodes, g2.edges ++ [(u, v, w)]⟩

/-- One iteration of the coordinate-pair walk: add both endpoints when
unseen, then the weighted edge. -/
def addSegment {α W : Type} [DecidableEq α] (segLen : α → α → W)
    (g : NXGraph α W) (u v : α) : NXGraph α W :=
  add_edge (add_node (add_node g u) v) u v (segLen u v)

def processPart {α W : Type} [DecidableEq α] (segLen : α → α → W)
    (g : NXGraph α W) (coords : List α) : NXGraph α W :=
  (consecPairs coords).foldl (fun g p => addSegment segLen g p.1 p.2) g

/-- The graph builder: null geometries are skipped, each geometry is
decomposed into its simple parts, and every consecutive coordinate pair
becomes a weighted undirected edge. -/
def build_graph_from_roads {α W : Type} [DecidableEq α] (segLen : α → α → W)
    (roads : List (Option (LineGeom α))) : NXGraph α W :=
  roads.foldl
    (fun g geo =>
      match geo with
      | none => g
      | some geo => (lineParts geo).foldl (processPart segLen) g)
    ⟨[], []⟩

/-- All consecutive coordinate pairs contributed by the road collection, in
processing order. -/
def partSegments {α : Type} (parts : List (List α)) : List (α × α) :=
  (parts.map consecPairs).flatten

def roadSegments {α : Type} : Option (LineGeom α) → List (α × α)
  | none => []
  | some geo => partSegments (lineParts geo)

def segmentsOf {α : Type} (roads : List (Option (LineGeom α))) : List (α × α) :=
  (roads.map roadSegments).flatten

/-- Stored weight of the undirected edge between `u` and `v`, if any. -/
def edgeWeight {α W : Type} [DecidableEq α] (g : NXGraph α W) (u v : α) : Option W :=
  (g.edges.find? (edgeMatches u v)).map fun e => e.2.2

/-- Squared Euclidean distance of two planar coordinates. -/
def sqDist {R : Type} [CommRing R] (a b : R × R) : R :=
  (a.1 - b.1) ^ 2 + (a.2 - b.2) ^ 2

/-- Every stored edge arises from a processed segment and carries that
segment's length. -/
def EdgeOk {α W : Type} (segLen : α → α → W) (S : List (α × α)) (e : α × α × W) : Prop :=
  ((e.1, e.2.1) ∈ S ∨ (e.2.1, e.1) ∈ S) ∧ e.2.2 = segLen e.1 e.2.1

/-! ### Nearest-node snapping (`nearest_node_id`, lines 198–205) -/

inductive SnapError : Type where
  | tooFar
deriving DecidableEq

/-- `kdtree.query([x, y], k=1)` is an external scipy call; its result
`(dist, idx)` is the input here.  The function raises `ValueError` exactly
when the nearest distance strictly exceeds `max_snap_dist`, and otherwise
returns `node_keys[int(idx)]`. -/
def nearest_node_id {ν W : Type} [Inhabited ν] [LinearOrder W] (query : W × Nat)
    (max_snap_dist : W) (node_keys : List ν) : Except SnapError ν :=
  if max_snap_dist < query.1 then .error .tooFar
  else .ok (node_keys.getD query.2 default)

/-! ### `compute_multi_distance_isochrones`: per-origin loop and failure
policy (lines 154, 196–299).

The model covers the general multi-band path; the single-distance
delegation (lines 157–173) runs the same snap/Dijkstra/contour logic
through `compute_isochrones_for_distance`.  Boundary synthesis (buffer or
concave, lines 246–259) is abstracted as `mkContour` applied to the
`nodes_within` list; a `none` result covers both a synthesis failure and
the concave error path that stores `None` after `st.error`. -/

inductive PtWarning : Type where
  | snapFailed (idx : Nat)
  | noReachable (idx : Nat)
deriving DecidableEq

/-- `sorted(set(distances_m))`. -/
def sortedDistances {W : Type} [DecidableEq W] [LinearOrder W] (l : List W) : List W :=
  l.dedup.insertionSort (· ≤ ·)

/-- `max(distances_sorted)`; python raises on an empty list, which the
caller rules out, so a default covers that unreachable case. -/
def pymaxD {W : Type} [LinearOrder W] (l : List W) (dflt : W) : W :=
  match l with
  | [] => dflt
  | x :: xs => xs.foldl max x

/-- Lines 211–264 for one origin `i`: snap it, run the traversal once at
the maximum distance, then derive every threshold's contour from the one
distance map.  Returns the contour slot for each threshold plus the
warnings this origin contributed. -/
def processPoint {ν W γ : Type} [DecidableEq ν] [LinearOrderedAddCommMonoid W]
    [Inhabited ν] (g : NXGraph ν W) (node_keys : List ν) (max_snap_dist : W)
    (distances_sorted : List W) (dmax : W) (mkContour : List ν → Option γ)
    (snap : W × Nat) (i : Nat) : List (Option γ) × List PtWarning :=
  match nearest_node_id snap max_snap_dist node_keys with
  | .error _ => (distances_sorted.map fun _ => none, [.snapFailed i])
  | .ok center =>
    let dists := single_source_dijkstra_path_length g center dmax
    if dists.isEmpty then (distances_sorted.map fun _ => none, [.noReachable i])
    else
      (distances_sorted.map fun d =>
        if (nodes_within dists d).isEmpty then none
        else mkContour (nodes_within dists d), [])

/-- Lines 288–297 for one distance band: drop slots that are `None` or
hold an empty geometry, tag the rest with the band. -/
def recordsForD {W γ : Type} (isEmptyG : γ → Bool) (d : W)
    (contours : List (Option γ)) : List (W × Nat × γ) :=
  ((List.range contours.length).zip contours).filterMap fun p =>
    match p.2 with
    | none => none
    | some c => if isEmptyG c then none else some (d, p.1, c)

/-- The multi-band loop of `compute_multi_distance_isochrones`: every
origin is processed (failures skip, they never abort), warnings accumulate
across origins, and the output records are the concatenation over the
sorted distance bands of the per-band surviving rows. -/
def compute_multi_distance_isochrones_core {ν W γ : Type} [DecidableEq ν]
    [DecidableEq W] [LinearOrderedAddCommMonoid W] [Inhabited ν]
    (g : NXGraph ν W) (node_keys : List ν) (max_snap_dist : W)
    (snaps : List (W × Nat)) (distances_m : List W)
    (mkContour : List ν → Option γ) (isEmptyG : γ → Bool) :
    List (W × Nat × γ) × List PtWarning :=
  let ds := sortedDistances distances_m
  let dmax := pymaxD ds 0
  let results := (List.range snaps.length).map fun i =>
    processPoint g node_keys max_snap_dist ds dmax mkContour (snaps.getD i (0, 0)) i
  let records := ((List.range ds.length).map fun j =>
    recordsForD isEmptyG (ds.getD j 0) (results.map fun r => r.1.getD j none)).flatten
  (records, (results.map Prod.snd).flatten)

/-! ### shapely geometry model for `boundary_utils`

A shapely object is observed by the code only through `geom_type`,
`is_empty`, `area`, `exterior` and `geoms`, so those are the model's
fields; ring values live in an arbitrary type `α`.  The geometric
operators themselves (`unary_union`, `buffer`, `convex_hull`,
`alphashape`) are external library calls and enter as parameters. -/

inductive SGeom (α : Type) : Type where
  | mk (t : String) (emp : Bool) (ar : ℚ) (ext : α) (gs : List (SGeom α))

def SGeom.geom_type {α : Type} : SGeom α → String
  | .mk t _ _ _ _ => t

def SGeom.is_empty {α : Type} : SGeom α → Bool
  | .mk _ emp _ _ _ => emp

def SGeom.area {α : Type} : SGeom α → ℚ
  | .mk _ _ ar _ _ => ar

def SGeom.exterior {α : Type} : SGeom α → α
  | .mk _ _ _ ext _ => ext

def SGeom.geoms {α : Type} : SGeom α → List (SGeom α)
  | .mk _ _ _ _ gs => gs

/-- `max(parts, key=lambda g: g.area)`: first maximal-area part (python
`max` keeps the earliest maximum; the empty case would raise and is
unreachable for nonempty shapely collections). -/
def maxByArea {α : Type} [Inhabited α] (l : List (SGeom α)) : SGeom α :=
  match l with
  | [] => .mk "GeometryCollection" true 0 default []
  | x :: xs => xs.foldl (fun acc g => if acc.area < g.area then g else acc) x

/-- The result of the python constructor `Polygon(shell)`: a single simple
polygon with the given outer ring and no interior holes. -/
structure PyPolygon (α : Type) where
  shell : α
  holes : List α

/-- `Polygon(ring)` — no holes argument is ever passed in this code. -/
def pyPolygonOfShell {α : Type} (shell : α) : PyPolygon α := ⟨shell, []⟩

/-- `boundary_utils.buffer_isochrone_from_segments`: union of segments →
buffer → open/close smooth, all external shapely operators abstracted as
`unionBufferSmooth`; then the dispatch on the smoothed geometry exactly as
in lines 89–115. -/
def buffer_isochrone_from_segments {σ α : Type} [Inhabited α]
    (unionBufferSmooth : List σ → ℚ → ℚ → SGeom α)
    (segs : List σ) (edge_width_m smooth_m : ℚ) : Option (PyPolygon α) :=
  if segs.isEmpty then none
  else
    let smooth := unionBufferSmooth segs edge_width_m smooth_m
    if smooth.is_empty then none
    else if smooth.geom_type = "Polygon" then some (pyPolygonOfShell smooth.exterior)
    else if smooth.geom_type = "MultiPolygon" then
      some (pyPolygonOfShell (maxByArea smooth.geoms).exterior)
    else
      let polys := smooth.geoms.filter fun g => decide (g.geom_type = "Polygon")
      if polys.isEmpty then none
      else some (pyPolygonOfShell (maxByArea polys).exterior)

/-! ### `boundary_utils.concave_isochrone_from_subgraph` -/

inductive ConcaveError : Type where
  | alphashapeMissing
deriving DecidableEq

/-- External geometry operators used by the concave mode, as parameters:
`MultiPoint(pts).convex_hull`, `shape.convex_hull`,
`alphashape.alphashape`, `alphashape.optimizealpha` (with its exception
handler folded into `Option`), and `geom.buffer`. -/
structure ConcaveOps (π α : Type) where
  convexHullPts : List π → SGeom α
  convexHullGeom : SGeom α → SGeom α
  alphashapeOf : List π → ℚ → SGeom α
  optimizealpha : List π → Option ℚ
  bufferG : SGeom α → ℚ → SGeom α

/-- Inner `to_polygon(shape)` of lines 36–57: normalize an arbitrary
geometry to a single polygon (largest part of a multi-polygon; convex hull
of the point set for degenerate inputs, buffered by `1.0` when that hull is
itself not a polygon). -/
def to_polygon {π α : Type} [Inhabited α] (ops : ConcaveOps π α) (pts : List π)
    (shape : SGeom α) : Option (SGeom α) :=
  if shape.is_empty then none
  else if shape.geom_type = "Polygon" then some shape
  else if shape.geom_type = "MultiPolygon" then some (maxByArea shape.geoms)
  else if shape.geom_type = "Point" ∨ shape.geom_type = "MultiPoint" ∨
      shape.geom_type = "LineString" ∨ shape.geom_type = "MultiLineString" then
    let ch := ops.convexHullPts pts
    if ch.geom_type = "Polygon" then some ch else some (ops.bufferG ch 1)
  else
    let ch := ops.convexHullGeom shape
    if ch.geom_type = "Polygon" then some ch else some (ops.bufferG ch 1)

/-- Lines 19–86: the concave (alpha-shape) boundary with convex-hull
fallbacks and the 5% sliver guard.  `pts` is the coordinate list of the
reachable subgraph's nodes; raising `RuntimeError` when `alphashape` is
missing is the `Except.error` case. -/
def concave_isochrone_from_subgraph {π α : Type} [Inhabited α]
    (hasAlphashape : Bool) (ops : ConcaveOps π α) (pts : List π)
    (alpha : Option ℚ) : Except ConcaveError (Option (SGeom α)) :=
  if hasAlphashape = false then .error .alphashapeMissing
  else if pts.length = 0 then .ok none
  else
    let convex := ops.convexHullPts pts
    let hull :=
      if pts.length < 4 then convex
      else
        let alpha_value :=
          match alpha with
          | some a => some a
          | none => ops.optimizealpha pts
        match alpha_value with
        | none => convex
        | some a =>
          if a ≤ 0 then convex
          else
            let h := ops.alphashapeOf pts a
            if h.is_empty then convex else h
    match to_polygon ops pts hull with
    | none => .ok none
    | some poly =>
      if 0 < convex.area ∧ poly.area < (0.05 : ℚ) * convex.area then
        .ok (to_polygon ops pts convex)
      else .ok (some poly)

/-! ### `workflow.run_isochrone_computation` gating (lines 53–109) -/

inductive RunOutcome (ρ : Type) : Type where
  | errorUploadPoints
  | errorValidDistance
  | errorConcaveMissing
  | errorRoadsOrGraph
  | errorCrsMismatch
  | errorIsoCompute
  | warnNoIso
  | success (records : ρ)

/-- The validation / gating sequence of `run_isochrone_computation`.  The
actual isochrone computation (wrapped in `try`) is abstracted as
`computed`; `none` models an exception, and an empty record collection
produces the warning outcome. -/
def run_isochrone_computation {ρ : Type} (hasPoints : Bool) (distances_m : List ℚ)
    (boundary_mode : String) (hasAlphashape : Bool) (roadsAndGraphOk : Bool)
    (crsOk : Bool) (computed : Option (List ρ)) : RunOutcome (List ρ) :=
  if hasPoints = false then .errorUploadPoints
  else if distances_m.isEmpty then .errorValidDistance
  else if boundary_mode = "concave" ∧ hasAlphashape = false then .errorConcaveMissing
  else if roadsAndGraphOk = false then .errorRoadsOrGraph
  else if crsOk = false then .errorCrsMismatch
  else
    match computed with
    | none => .errorIsoCompute
    | some recs => if recs.isEmpty then .warnNoIso else .success recs

/-- Degenerate-hull fixture: two collinear points, so
`MultiPoint(pts).convex_hull` is a `LineString` (as in shapely), and
`buffer(1.0)` fattens it into a polygon. -/
def opsDegenerateHull : ConcaveOps Nat Nat where
  convexHullPts := fun _ => SGeom.mk "LineString" false 0 0 []
  convexHullGeom := fun g => g
  alphashapeOf := fun _ _ => SGeom.mk "Polygon" false 1 0 []
  optimizealpha := fun _ => none
  bufferG := fun _ _ => SGeom.mk "Polygon" false 3 99 []

/-- Concrete instantiation of the amended C6 theorem: a three-point
polygonal hull is returned unchanged. -/
def opsPolygonHull : ConcaveOps Nat Nat where
  convexHullPts := fun _ => SGeom.mk "Polygon" false 0 2 []
  convexHullGeom := fun g => g
  alphashapeOf := fun _ _ => SGeom.mk "Polygon" false 50 1 []
  optimizealpha := fun _ => none
  bufferG := fun _ _ => SGeom.mk "Polygon" false 3 99 []

def gC8 : NXGraph Nat ℤ := ⟨[0, 1], [(0, 1, 3)]⟩

def snapsC8 : List (ℤ × Nat) := [(20, 0), (0, 1)]

def snapsC8' : List (ℤ × Nat) := [(0, 0), (0, 1)]

def mkLenC8 : List Nat → Option Nat := fun l => some l.length

def isZeroC8 : Nat → Bool := fun n => decide (n = 0)

/-! ### Theorems -/

theorem alookup_eq_none {ν β : Type} [DecidableEq ν] {k : ν} {l : List (ν × β)} :
    alookup k l = none ↔ ∀ b, (k, b) ∉ l := by
  induction l with
  | nil => simp [alookup]
  | cons hd tl ih =>
    obtain ⟨a, b'⟩ := hd
    by_cases hk : k = a
    · subst hk
      constructor
      · intro h
        simp [alookup] at h
      · intro h
        exact absurd (List.mem_cons_self _ _) (h b')
    · simp only [alookup, if_neg hk, ih, List.mem_cons]
      constructor
      · intro h b hb
        rcases hb with hb | hb
        · exact hk (congrArg Prod.fst hb)
        · exact h b hb
      · intro h b hb
        exact h b (Or.inr hb)

theorem alookup_isSome_of_mem {ν β : Type} [DecidableEq ν] {k : ν} {b : β}
    {l : List (ν × β)} (h : (k, b) ∈ l) : (alookup k l).isSome := by
  induction l with
  | nil => simp at h
  | cons hd tl ih =>
    obtain ⟨a, b'⟩ := hd
    rcases List.mem_cons.mp h with h' | h'
    · obtain ⟨rfl, rfl⟩ := Prod.mk.injEq .. ▸ h'
      simp [alookup]
    · by_cases hk : k = a
      · simp [alookup, hk]
      · simpa [alookup, hk] using ih h'

theorem mem_of_alookup_eq_some {ν β : Type} [DecidableEq ν] {k : ν} {b : β}
    {l : List (ν × β)} (h : alookup k l = some b) : (k, b) ∈ l := by
  induction l with
  | nil => simp [alookup] at h
  | cons hd tl ih =>
    obtain ⟨a, b'⟩ := hd
    by_cases hk : k = a
    · subst hk
      simp [alookup] at h
      simp [h]
    · simp only [alookup, if_neg hk] at h
      exact List.mem_cons_of_mem _ (ih h)

theorem alookup_eq_some_of_mem_nodup {ν β : Type} [DecidableEq ν] {k : ν} {b : β}
    {l : List (ν × β)} (hnd : (l.map Prod.fst).Nodup) (h : (k, b) ∈ l) :
    alookup k l = some b := by
  induction l with
  | nil => simp at h
  | cons hd tl ih =>
    obtain ⟨a, b'⟩ := hd
    simp only [List.map_cons, List.nodup_cons] at hnd
    rcases List.mem_cons.mp h with h' | h'
    · obtain ⟨rfl, rfl⟩ := Prod.mk.injEq .. ▸ h'
      simp [alookup]
    · have hk : k ≠ a := by
        rintro rfl
        exact hnd.1 (List.mem_map.mpr ⟨(k, b), h', rfl⟩)
      simp only [alookup, if_neg hk]
      exact ih hnd.2 h'

theorem alookup_append_left {ν β : Type} [DecidableEq ν] {k : ν} {b : β}
    {l₁ : List (ν × β)} (l₂ : List (ν × β)) (h : alookup k l₁ = some b) :
    alookup k (l₁ ++ l₂) = some b := by
  induction l₁ with
  | nil => simp [alookup] at h
  | cons hd tl ih =>
    obtain ⟨a, b'⟩ := hd
    by_cases hk : k = a
    · simp_all [alookup]
    · simp only [alookup, if_neg hk] at h ⊢
      exact ih h

theorem alookup_append_none {ν β : Type} [DecidableEq ν] {k : ν}
    {l₁ l₂ : List (ν × β)} (h : alookup k l₁ = none) :
    alookup k (l₁ ++ l₂) = alookup k l₂ := by
  induction l₁ with
  | nil => simp
  | cons hd tl ih =>
    obtain ⟨a, b'⟩ := hd
    by_cases hk : k = a
    · simp [alookup, hk] at h
    · simp only [alookup, if_neg hk] at h ⊢
      exact ih h

theorem pickMin_eq_none {W ν : Type} [LinearOrder W] {l : List (W × ν)} :
    pickMin l = none ↔ l = [] := by
  cases l with
  | nil => simp [pickMin]
  | cons e rest =>
    simp only [pickMin]
    constructor
    · intro h
      cases hr : pickMin rest with
      | none => rw [hr] at h; simp at h
      | some p => rw [hr] at h; obtain ⟨m, rest'⟩ := p; dsimp at h; split at h <;> simp_all
    · intro h
      simp at h

theorem pickMin_perm {W ν : Type} [LinearOrder W] {l rest : List (W × ν)} {e : W × ν}
    (h : pickMin l = some (e, rest)) : l.Perm (e :: rest) := by
  induction l generalizing e rest with
  | nil => simp [pickMin] at h
  | cons hd tl ih =>
    simp only [pickMin] at h
    cases hr : pickMin tl with
    | none =>
      rw [hr] at h
      simp only [Option.some.injEq, Prod.mk.injEq] at h
      obtain ⟨rfl, rfl⟩ := h
      have : tl = [] := pickMin_eq_none.mp hr
      simp [this]
    | some p =>
      obtain ⟨m, rest'⟩ := p
      rw [hr] at h
      dsimp at h
      split at h
      · simp only [Option.some.injEq, Prod.mk.injEq] at h
        obtain ⟨rfl, rfl⟩ := h
        exact List.Perm.refl _
      · simp only [Option.some.injEq, Prod.mk.injEq] at h
        obtain ⟨rfl, rfl⟩ := h
        exact ((ih hr).cons hd).trans (List.Perm.swap m hd rest')

theorem pickMin_min {W ν : Type} [LinearOrder W] {l rest : List (W × ν)} {e : W × ν}
    (h : pickMin l = some (e, rest)) : ∀ x ∈ l, e.1 ≤ x.1 := by
  induction l generalizing e rest with
  | nil => simp [pickMin] at h
  | cons hd tl ih =>
    simp only [pickMin] at h
    cases hr : pickMin tl with
    | none =>
      rw [hr] at h
      simp only [Option.some.injEq, Prod.mk.injEq] at h
      obtain ⟨rfl, rfl⟩ := h
      have : tl = [] := pickMin_eq_none.mp hr
      simp [this]
    | some p =>
      obtain ⟨m, rest'⟩ := p
      rw [hr] at h
      dsimp at h
      split at h
      · rename_i hle
        simp only [Option.some.injEq, Prod.mk.injEq] at h
        obtain ⟨rfl, rfl⟩ := h
        intro x hx
        rcases List.mem_cons.mp hx with rfl | hx
        · exact le_refl _
        · exact le_trans hle (ih hr x hx)
      · rename_i hgt
        simp only [Option.some.injEq, Prod.mk.injEq] at h
        obtain ⟨rfl, rfl⟩ := h
        intro x hx
        rcases List.mem_cons.mp hx with rfl | hx
        · exact le_of_lt (lt_of_not_ge hgt)
        · exact ih hr x hx

theorem mem_of_pickMin {W ν : Type} [LinearOrder W] {l rest : List (W × ν)} {e : W × ν}
    (h : pickMin l = some (e, rest)) {x : W × ν} (hx : x ∈ l) :
    x = e ∨ x ∈ rest :=
  List.mem_cons.mp ((pickMin_perm h).mem_iff.mp hx)

theorem mem_of_pickMin_rest {W ν : Type} [LinearOrder W] {l rest : List (W × ν)} {e : W × ν}
    (h : pickMin l = some (e, rest)) {x : W × ν} (hx : x ∈ rest) : x ∈ l :=
  (pickMin_perm h).mem_iff.mpr (List.mem_cons_of_mem _ hx)

theorem pickMin_self_mem {W ν : Type} [LinearOrder W] {l rest : List (W × ν)} {e : W × ν}
    (h : pickMin l = some (e, rest)) : e ∈ l :=
  (pickMin_perm h).mem_iff.mpr (List.mem_cons_self _ _)

theorem pickMin_length {W ν : Type} [LinearOrder W] {l rest : List (W × ν)} {e : W × ν}
    (h : pickMin l = some (e, rest)) : l.length = rest.length + 1 := by
  simpa using (pickMin_perm h).length_eq

example :
    single_source_dijkstra_path_length
      (NXGraph.mk [0, 1, 2] [(0, 1, 5), (1, 2, 7)]) (0 : Nat) (100 : ℤ) =
      [(0, 0), (1, 5), (2, 12)] := by decide

example :
    single_source_dijkstra_path_length
      (NXGraph.mk [0, 1, 2] [(0, 1, 5), (1, 2, 7)]) (0 : Nat) (6 : ℤ) =
      [(0, 0), (1, 5)] := by decide

example :
    single_source_dijkstra_path_length
      (NXGraph.mk [0, 1, 2, 3] [(0, 1, 5), (1, 2, 7), (0, 2, 9), (3, 3, 0)])
      (0 : Nat) (100 : ℤ) = [(0, 0), (1, 5), (2, 9)] := by decide

theorem pathTo_nonneg {ν W : Type} [LinearOrderedAddCommMonoid W]
    {adj : ν → List (ν × W)} (hnn : NonnegAdj adj) {s v : ν} {c : W}
    (h : PathTo adj s v c) : 0 ≤ c := by
  induction h with
  | refl => exact le_refl 0
  | tail p hp ih => exact add_nonneg ih (hnn _ _ hp)

theorem isShortestDist_unique {ν W : Type} [LinearOrderedAddCommMonoid W]
    {adj : ν → List (ν × W)} {s v : ν} {d d' : W}
    (h : IsShortestDist adj s v d) (h' : IsShortestDist adj s v d') : d = d' :=
  le_antisymm (h.2 d' h'.1) (h'.2 d h.1)

/-- If an unsettled node is reachable within the cutoff then some fringe
entry is at most that path cost. -/
theorem dinv_cover {ν W : Type} [DecidableEq ν] [LinearOrderedAddCommMonoid W]
    {adj : ν → List (ν × W)} {cands : List ν} {s : ν} {cutoff : W}
    {dist : List (ν × W)} {fringe : List (W × ν)} {seen : List (ν × W)}
    (inv : DInv adj cands s cutoff dist fringe seen) (hnn : NonnegAdj adj)
    {v : ν} {c : W} (hp : PathTo adj s v c) :
    c ≤ cutoff → alookup v dist = none → ∃ e ∈ fringe, e.1 ≤ c := by
  induction hp with
  | refl =>
    intro _ hv
    rcases inv.start with ⟨d0, hd0⟩ | hmem
    · exact absurd (alookup_eq_none.mp hv d0) (not_not_intro hd0)
    · exact ⟨(0, s), hmem, le_refl 0⟩
  | @tail p u c w hpath hedge ih =>
    intro hc hv'
    have hw : (0 : W) ≤ w := hnn p (u, w) hedge
    cases hlook : alookup p dist with
    | some dp =>
      have hmem := mem_of_alookup_eq_some hlook
      have hsh := (inv.settled p dp hmem).1
      have hdp : dp ≤ c := hsh.2 c hpath
      have hcut : dp + w ≤ cutoff :=
        le_trans (add_le_add_right hdp w) hc
      obtain ⟨e, he, _, hev⟩ := inv.frontier p dp hmem u w hedge hv' hcut
      exact ⟨e, he, le_trans hev (add_le_add_right hdp w)⟩
    | none =>
      have hcc : c ≤ cutoff := le_trans (le_add_of_nonneg_right hw) hc
      obtain ⟨e, he, hec⟩ := ih hcc hlook
      exact ⟨e, he, le_trans hec (le_add_of_nonneg_right hw)⟩

/-- Greedy step: when the loop pops a minimal fringe entry whose node is
still unsettled, that entry's distance is the shortest-path distance. -/
theorem dinv_popped_shortest {ν W : Type} [DecidableEq ν] [LinearOrderedAddCommMonoid W]
    {adj : ν → List (ν × W)} {cands : List ν} {s : ν} {cutoff : W}
    {dist : List (ν × W)} {fringe rest : List (W × ν)} {seen : List (ν × W)}
    (inv : DInv adj cands s cutoff dist fringe seen) (hnn : NonnegAdj adj)
    {d : W} {v : ν} (hpick : pickMin fringe = some ((d, v), rest))
    (hv : alookup v dist = none) : IsShortestDist adj s v d := by
  have hmem : (d, v) ∈ fringe := pickMin_self_mem hpick
  have hsound := inv.fringeSound (d, v) hmem
  refine ⟨hsound.1, ?_⟩
  intro c hp
  by_contra hlt
  push_neg at hlt
  rcases hsound.2 with hcut | ⟨hvs, hd0⟩
  · have hcc : c ≤ cutoff := le_trans (le_of_lt hlt) hcut
    obtain ⟨e, he, hec⟩ := dinv_cover inv hnn hp hcc hv
    exact absurd (lt_of_le_of_lt hec hlt) (not_lt_of_ge (pickMin_min hpick e he))
  · dsimp at hvs hd0
    subst hvs
    rw [hd0] at hlt
    exact absurd (pathTo_nonneg hnn hp) (not_le_of_gt hlt)

/-- Invariant preservation when the popped node is already settled (the
lazy-deletion skip `if v in dist: continue`). -/
theorem dinv_skip {ν W : Type} [DecidableEq ν] [LinearOrderedAddCommMonoid W]
    {adj : ν → List (ν × W)} {cands : List ν} {s : ν} {cutoff : W}
    {dist : List (ν × W)} {fringe rest : List (W × ν)} {seen : List (ν × W)}
    (inv : DInv adj cands s cutoff dist fringe seen)
    {d : W} {v : ν} (hpick : pickMin fringe = some ((d, v), rest))
    (hv : (alookup v dist).isSome) : DInv adj cands s cutoff dist rest seen := by
  refine ⟨inv.nodup, inv.settled, ?_, ?_, ?_, ?_, ?_⟩
  · intro e he
    exact inv.fringeSound e (mem_of_pickMin_rest hpick he)
  · rcases inv.start with h | h
    · exact Or.inl h
    · rcases mem_of_pickMin hpick h with h' | h'
      · obtain ⟨h1, h2⟩ := Prod.mk.injEq .. ▸ h'
        subst h2
        obtain ⟨d0, hd0⟩ := Option.isSome_iff_exists.mp hv
        exact Or.inl ⟨d0, mem_of_alookup_eq_some hd0⟩
      · exact Or.inr h'
  · intro p dp hmem u w hedge hnone hcut
    obtain ⟨e, he, heu, hew⟩ := inv.frontier p dp hmem u w hedge hnone hcut
    refine ⟨e, ?_, heu, hew⟩
    rcases mem_of_pickMin hpick he with h' | h'
    · exfalso
      subst h'
      dsimp at heu
      subst heu
      rw [hnone] at hv
      simp at hv
    · exact h'
  · intro u su hsu hnone
    obtain ⟨e, he, heu, hew⟩ := inv.seenInv u su hsu hnone
    refine ⟨e, ?_, heu, hew⟩
    rcases mem_of_pickMin hpick he with h' | h'
    · exfalso
      subst h'
      dsimp at heu
      subst heu
      rw [hnone] at hv
      simp at hv
    · exact h'
  · intro e he
    exact inv.fringeCands e (mem_of_pickMin_rest hpick he)

/-! Step equations for `relaxAll`, one per branch of the relaxation. -/

theorem relaxAll_cons_cut {ν W : Type} [DecidableEq ν] [LinearOrderedAddCommMonoid W]
    {cutoff : W} {dist : List (ν × W)} {dv : W} {u : ν} {w : W}
    {rest : List (ν × W)} {fringe : List (W × ν)} {seen : List (ν × W)}
    (h1 : cutoff < dv + w) :
    relaxAll cutoff dist dv ((u, w) :: rest) fringe seen =
      relaxAll cutoff dist dv rest fringe seen := by
  simp [relaxAll, h1]

theorem relaxAll_cons_settled {ν W : Type} [DecidableEq ν] [LinearOrderedAddCommMonoid W]
    {cutoff : W} {dist : List (ν × W)} {dv : W} {u : ν} {w : W}
    {rest : List (ν × W)} {fringe : List (W × ν)} {seen : List (ν × W)}
    (h1 : ¬ cutoff < dv + w) (h2 : (alookup u dist).isSome) :
    relaxAll cutoff dist dv ((u, w) :: rest) fringe seen =
      relaxAll cutoff dist dv rest fringe seen := by
  simp [relaxAll, h1, h2]

theorem relaxAll_cons_dominated {ν W : Type} [DecidableEq ν] [LinearOrderedAddCommMonoid W]
    {cutoff : W} {dist : List (ν × W)} {dv : W} {u : ν} {w : W} {su : W}
    {rest : List (ν × W)} {fringe : List (W × ν)} {seen : List (ν × W)}
    (h1 : ¬ cutoff < dv + w) (h2 : ¬ (alookup u dist).isSome)
    (h3 : alookup u seen = some su) (h4 : ¬ dv + w < su) :
    relaxAll cutoff dist dv ((u, w) :: rest) fringe seen =
      relaxAll cutoff dist dv rest fringe seen := by
  simp [relaxAll, h1, h2, h3, h4]

theorem relaxAll_cons_push_seen {ν W : Type} [DecidableEq ν] [LinearOrderedAddCommMonoid W]
    {cutoff : W} {dist : List (ν × W)} {dv : W} {u : ν} {w : W} {su : W}
    {rest : List (ν × W)} {fringe : List (W × ν)} {seen : List (ν × W)}
    (h1 : ¬ cutoff < dv + w) (h2 : ¬ (alookup u dist).isSome)
    (h3 : alookup u seen = some su) (h4 : dv + w < su) :
    relaxAll cutoff dist dv ((u, w) :: rest) fringe seen =
      relaxAll cutoff dist dv rest (fringe ++ [(dv + w, u)]) ((u, dv + w) :: seen) := by
  simp [relaxAll, h1, h2, h3, h4]

theorem relaxAll_cons_push_new {ν W : Type} [DecidableEq ν] [LinearOrderedAddCommMonoid W]
    {cutoff : W} {dist : List (ν × W)} {dv : W} {u : ν} {w : W}
    {rest : List (ν × W)} {fringe : List (W × ν)} {seen : List (ν × W)}
    (h1 : ¬ cutoff < dv + w) (h2 : ¬ (alookup u dist).isSome)
    (h3 : alookup u seen = none) :
    relaxAll cutoff dist dv ((u, w) :: rest) fringe seen =
      relaxAll cutoff dist dv rest (fringe ++ [(dv + w, u)]) ((u, dv + w) :: seen) := by
  simp [relaxAll, h1, h2, h3]

/-- Complete behaviour of the relaxation pass over a neighbour list: the
fringe only grows, the `seen` invariant is maintained, each admissible
neighbour ends covered by a fringe entry, every new entry is an admissible
relaxation, and at most one entry is pushed per neighbour. -/
theorem relaxAll_spec {ν W : Type} [DecidableEq ν] [LinearOrderedAddCommMonoid W]
    {cutoff : W} {dist : List (ν × W)} {dv : W} :
    ∀ (nbrs : List (ν × W)) (fringe : List (W × ν)) (seen : List (ν × W)),
    (∀ u su, alookup u seen = some su → alookup u dist = none →
        ∃ e ∈ fringe, e.2 = u ∧ e.1 ≤ su) →
    (∀ e ∈ fringe, e ∈ (relaxAll cutoff dist dv nbrs fringe seen).1) ∧
    (∀ u su, alookup u (relaxAll cutoff dist dv nbrs fringe seen).2 = some su →
        alookup u dist = none →
        ∃ e ∈ (relaxAll cutoff dist dv nbrs fringe seen).1, e.2 = u ∧ e.1 ≤ su) ∧
    (∀ u w, (u, w) ∈ nbrs → alookup u dist = none → dv + w ≤ cutoff →
        ∃ e ∈ (relaxAll cutoff dist dv nbrs fringe seen).1, e.2 = u ∧ e.1 ≤ dv + w) ∧
    (∀ e ∈ (relaxAll cutoff dist dv nbrs fringe seen).1,
        e ∈ fringe ∨ ∃ u w, (u, w) ∈ nbrs ∧ e = (dv + w, u) ∧ dv + w ≤ cutoff ∧
          alookup u dist = none) ∧
    (relaxAll cutoff dist dv nbrs fringe seen).1.length ≤ fringe.length + nbrs.length := by
  intro nbrs
  induction nbrs with
  | nil =>
    intro fringe seen hSeen
    refine ⟨fun e he => he, ?_, ?_, ?_, ?_⟩
    · intro u su h1 h2
      exact hSeen u su h1 h2
    · intro u w hmem
      simp at hmem
    · intro e he
      exact Or.inl he
    · simp [relaxAll]
  | cons hd rest ih =>
    obtain ⟨u, w⟩ := hd
    intro fringe seen hSeen
    by_cases h1 : cutoff < dv + w
    · rw [relaxAll_cons_cut h1]
      obtain ⟨a, b, c, d, e⟩ := ih fringe seen hSeen
      refine ⟨a, b, ?_, ?_, by simpa using Nat.le_succ_of_le e⟩
      · intro u' w' hmem hnone hcut
        rcases List.mem_cons.mp hmem with heq | hmem'
        · obtain ⟨rfl, rfl⟩ := Prod.mk.injEq .. ▸ heq
          exact absurd hcut (not_le_of_gt h1)
        · exact c u' w' hmem' hnone hcut
      · intro e' he'
        rcases d e' he' with h | ⟨u', w', hm, hrest⟩
        · exact Or.inl h
        · exact Or.inr ⟨u', w', List.mem_cons_of_mem _ hm, hrest⟩
    · by_cases h2 : (alookup u dist).isSome
      · rw [relaxAll_cons_settled h1 h2]
        obtain ⟨a, b, c, d, e⟩ := ih fringe seen hSeen
        refine ⟨a, b, ?_, ?_, by simpa using Nat.le_succ_of_le e⟩
        · intro u' w' hmem hnone hcut
          rcases List.mem_cons.mp hmem with heq | hmem'
          · obtain ⟨rfl, rfl⟩ := Prod.mk.injEq .. ▸ heq
            rw [hnone] at h2
            simp at h2
          · exact c u' w' hmem' hnone hcut
        · intro e' he'
          rcases d e' he' with h | ⟨u', w', hm, hrest⟩
          · exact Or.inl h
          · exact Or.inr ⟨u', w', List.mem_cons_of_mem _ hm, hrest⟩
      · have hnoneu : alookup u dist = none := by
          cases h : alookup u dist with
          | none => rfl
          | some x => rw [h] at h2; simp at h2
        have hwc : dv + w ≤ cutoff := le_of_not_lt h1
        have hpush : ∀ u' su', alookup u' ((u, dv + w) :: seen) = some su' →
            alookup u' dist = none →
            ∃ e ∈ fringe ++ [(dv + w, u)], e.2 = u' ∧ e.1 ≤ su' := by
          intro u' su' hlook hnone
          by_cases hu : u' = u
          · subst hu
            have hsu : su' = dv + w := by
              simpa [alookup] using hlook.symm
            subst hsu
            exact ⟨(dv + w, u'), by simp, rfl, le_refl _⟩
          · simp only [alookup, if_neg hu] at hlook
            obtain ⟨e, he, heq, hle⟩ := hSeen u' su' hlook hnone
            exact ⟨e, List.mem_append_left _ he, heq, hle⟩
        cases h3 : alookup u seen with
        | some su =>
          by_cases h4 : dv + w < su
          · rw [relaxAll_cons_push_seen h1 h2 h3 h4]
            obtain ⟨a, b, c, d, e⟩ :=
              ih (fringe ++ [(dv + w, u)]) ((u, dv + w) :: seen) hpush
            refine ⟨?_, b, ?_, ?_, ?_⟩
            · intro e' he'
              exact a e' (List.mem_append_left _ he')
            · intro u' w' hmem hnone hcut
              rcases List.mem_cons.mp hmem with heq | hmem'
              · obtain ⟨rfl, rfl⟩ := Prod.mk.injEq .. ▸ heq
                exact ⟨(dv + w', u'), a _ (by simp), rfl, le_refl _⟩
              · exact c u' w' hmem' hnone hcut
            · intro e' he'
              rcases d e' he' with h | ⟨u', w', hm, hrest⟩
              · rcases List.mem_append.mp h with h' | h'
                · exact Or.inl h'
                · simp only [List.mem_singleton] at h'
                  exact Or.inr ⟨u, w, List.mem_cons_self _ _, h', hwc, hnoneu⟩
              · exact Or.inr ⟨u', w', List.mem_cons_of_mem _ hm, hrest⟩
            · calc (relaxAll cutoff dist dv rest (fringe ++ [(dv + w, u)])
                    ((u, dv + w) :: seen)).1.length
                  ≤ (fringe ++ [(dv + w, u)]).length + rest.length := e
                _ = fringe.length + (rest.length + 1) := by
                    simp [List.length_append]
                    omega
                _ = fringe.length + ((u, w) :: rest).length := by simp
          · rw [relaxAll_cons_dominated h1 h2 h3 h4]
            obtain ⟨a, b, c, d, e⟩ := ih fringe seen hSeen
            refine ⟨a, b, ?_, ?_, by simpa using Nat.le_succ_of_le e⟩
            · intro u' w' hmem hnone hcut
              rcases List.mem_cons.mp hmem with heq | hmem'
              · obtain ⟨rfl, rfl⟩ := Prod.mk.injEq .. ▸ heq
                obtain ⟨e', he', heq', hle'⟩ := hSeen u' su h3 hnone
                exact ⟨e', a e' he', heq', le_trans hle' (le_of_not_lt h4)⟩
              · exact c u' w' hmem' hnone hcut
            · intro e' he'
              rcases d e' he' with h | ⟨u', w', hm, hrest⟩
              · exact Or.inl h
              · exact Or.inr ⟨u', w', List.mem_cons_of_mem _ hm, hrest⟩
        | none =>
          rw [relaxAll_cons_push_new h1 h2 h3]
          obtain ⟨a, b, c, d, e⟩ :=
            ih (fringe ++ [(dv + w, u)]) ((u, dv + w) :: seen) hpush
          refine ⟨?_, b, ?_, ?_, ?_⟩
          · intro e' he'
            exact a e' (List.mem_append_left _ he')
          · intro u' w' hmem hnone hcut
            rcases List.mem_cons.mp hmem with heq | hmem'
            · obtain ⟨rfl, rfl⟩ := Prod.mk.injEq .. ▸ heq
              exact ⟨(dv + w', u'), a _ (by simp), rfl, le_refl _⟩
            · exact c u' w' hmem' hnone hcut
          · intro e' he'
            rcases d e' he' with h | ⟨u', w', hm, hrest⟩
            · rcases List.mem_append.mp h with h' | h'
              · exact Or.inl h'
              · simp only [List.mem_singleton] at h'
                exact Or.inr ⟨u, w, List.mem_cons_self _ _, h', hwc, hnoneu⟩
            · exact Or.inr ⟨u', w', List.mem_cons_of_mem _ hm, hrest⟩
          · calc (relaxAll cutoff dist dv rest (fringe ++ [(dv + w, u)])
                  ((u, dv + w) :: seen)).1.length
                ≤ (fringe ++ [(dv + w, u)]).length + rest.length := e
              _ = fringe.length + (rest.length + 1) := by
                  simp [List.length_append]
                  omega
              _ = fringe.length + ((u, w) :: rest).length := by simp

theorem alookup_append_singleton_self {ν β : Type} [DecidableEq ν] {l : List (ν × β)}
    {v : ν} {b : β} (h : alookup v l = none) :
    alookup v (l ++ [(v, b)]) = some b := by
  rw [alookup_append_none h]
  simp [alookup]

theorem alookup_none_of_append_none {ν β : Type} [DecidableEq ν] {l l' : List (ν × β)}
    {x : ν} (h : alookup x (l ++ l') = none) : alookup x l = none := by
  cases hx : alookup x l with
  | none => rfl
  | some b => rw [alookup_append_left l' hx] at h; exact absurd h (by simp)

theorem ne_of_append_singleton_none {ν β : Type} [DecidableEq ν] {l : List (ν × β)}
    {x v : ν} {b : β} (h : alookup x (l ++ [(v, b)]) = none) : x ≠ v := by
  rintro rfl
  have := alookup_eq_none.mp h b
  simp at this

/-- Invariant preservation for the settle step: the popped node is recorded
with its (shortest) distance and its neighbours are relaxed. -/
theorem dinv_settle {ν W : Type} [DecidableEq ν] [LinearOrderedAddCommMonoid W]
    {adj : ν → List (ν × W)} {cands : List ν} {s : ν} {cutoff : W}
    {dist : List (ν × W)} {fringe rest : List (W × ν)} {seen : List (ν × W)}
    (inv : DInv adj cands s cutoff dist fringe seen) (hnn : NonnegAdj adj)
    (Hadj : ∀ v, ∀ p ∈ adj v, p.1 ∈ cands)
    {d : W} {v : ν} (hpick : pickMin fringe = some ((d, v), rest))
    (hv : alookup v dist = none) :
    DInv adj cands s cutoff (dist ++ [(v, d)])
      (relaxAll cutoff (dist ++ [(v, d)]) d (adj v) rest seen).1
      (relaxAll cutoff (dist ++ [(v, d)]) d (adj v) rest seen).2 ∧
    (relaxAll cutoff (dist ++ [(v, d)]) d (adj v) rest seen).1.length ≤
      rest.length + (adj v).length := by
  have hpop : (d, v) ∈ fringe := pickMin_self_mem hpick
  have hsound := inv.fringeSound (d, v) hpop
  have hsd : IsShortestDist adj s v d := dinv_popped_shortest inv hnn hpick hv
  have hvd' : alookup v (dist ++ [(v, d)]) = some d := alookup_append_singleton_self hv
  have hmem_dist' : ∀ {p : ν} {dp : W}, (p, dp) ∈ dist ++ [(v, d)] →
      (p, dp) ∈ dist ∨ (p = v ∧ dp = d) := by
    intro p dp h
    rcases List.mem_append.mp h with h' | h'
    · exact Or.inl h'
    · simp only [List.mem_singleton] at h'
      exact Or.inr ⟨congrArg Prod.fst h', congrArg Prod.snd h'⟩
  have hSeen' : ∀ u su, alookup u seen = some su →
      alookup u (dist ++ [(v, d)]) = none → ∃ e ∈ rest, e.2 = u ∧ e.1 ≤ su := by
    intro u su hsu hnone
    have hne : u ≠ v := ne_of_append_singleton_none hnone
    obtain ⟨e, he, heu, hew⟩ :=
      inv.seenInv u su hsu (alookup_none_of_append_none hnone)
    refine ⟨e, ?_, heu, hew⟩
    rcases mem_of_pickMin hpick he with h' | h'
    · exfalso
      subst h'
      exact hne heu.symm
    · exact h'
  obtain ⟨hA, hB, hC, hD, hE⟩ := relaxAll_spec (adj v) rest seen hSeen'
  refine ⟨⟨?_, ?_, ?_, ?_, ?_, hB, ?_⟩, hE⟩
  · rw [List.map_append]
    simp only [List.map_cons, List.map_nil]
    rw [List.nodup_append]
    refine ⟨inv.nodup, List.nodup_singleton v, ?_⟩
    intro x hx hx'
    simp only [List.mem_singleton] at hx'
    subst hx'
    obtain ⟨⟨p, b⟩, hpb, hfst⟩ := List.mem_map.mp hx
    dsimp at hfst
    subst hfst
    exact absurd (alookup_eq_none.mp hv b) (not_not_intro hpb)
  · intro p dp hmem
    rcases hmem_dist' hmem with h' | ⟨rfl, rfl⟩
    · exact inv.settled p dp h'
    · refine ⟨hsd, ?_⟩
      rcases hsound.2 with h | ⟨h1, h2⟩
      · exact Or.inl h
      · exact Or.inr ⟨h1, h2⟩
  · intro e he
    rcases hD e he with h' | ⟨u, w, hm, rfl, hcut, hnone⟩
    · exact inv.fringeSound e (mem_of_pickMin_rest hpick h')
    · exact ⟨PathTo.tail hsound.1 hm, Or.inl hcut⟩
  · rcases inv.start with ⟨d0, hd0⟩ | hmem
    · exact Or.inl ⟨d0, List.mem_append_left _ hd0⟩
    · rcases mem_of_pickMin hpick hmem with h' | h'
      · obtain ⟨h1, h2⟩ := Prod.mk.injEq .. ▸ h'
        subst h2
        exact Or.inl ⟨d, List.mem_append_right _ (by simp)⟩
      · exact Or.inr (hA _ h')
  · intro p dp hmem u w hedge hnone hcut
    have hne : u ≠ v := ne_of_append_singleton_none hnone
    rcases hmem_dist' hmem with h' | ⟨rfl, rfl⟩
    · obtain ⟨e, he, heu, hew⟩ :=
        inv.frontier p dp h' u w hedge (alookup_none_of_append_none hnone) hcut
      refine ⟨e, ?_, heu, hew⟩
      apply hA
      rcases mem_of_pickMin hpick he with h'' | h''
      · exfalso
        subst h''
        exact hne heu.symm
      · exact h''
    · exact hC u w hedge hnone hcut
  · intro e he
    rcases hD e he with h' | ⟨u, w, hm, rfl, hcut, hnone⟩
    · exact inv.fringeCands e (mem_of_pickMin_rest hpick h')
    · exact Hadj v (u, w) hm

theorem sum_filter_le_of_imp {ν : Type} (cands : List ν) (f : ν → Nat) {p q : ν → Bool}
    (hpq : ∀ x, q x = true → p x = true) :
    ((cands.filter q).map f).sum ≤ ((cands.filter p).map f).sum := by
  induction cands with
  | nil => simp
  | cons x xs ih =>
    by_cases hq : q x = true
    · have hp := hpq x hq
      simp only [List.filter_cons, hq, hp, if_pos, List.map_cons, List.sum_cons]
      omega
    · by_cases hp : p x = true
      · simp only [List.filter_cons, hq, hp, if_pos, Bool.false_eq_true, if_false,
          List.map_cons, List.sum_cons]
        omega
      · simp only [List.filter_cons, hq, hp, Bool.false_eq_true, if_false]
        exact ih

theorem sum_filter_drop {ν : Type} {cands : List ν} (f : ν → Nat) {p q : ν → Bool}
    (hpq : ∀ x, q x = true → p x = true) {v : ν} (hv : v ∈ cands)
    (hpv : p v = true) (hqv : q v = false) :
    ((cands.filter q).map f).sum + f v ≤ ((cands.filter p).map f).sum := by
  induction cands with
  | nil => simp at hv
  | cons x xs ih =>
    by_cases hxv : x = v
    · subst hxv
      simp only [List.filter_cons, hqv, hpv, Bool.false_eq_true, if_false, if_pos,
        List.map_cons, List.sum_cons]
      have := sum_filter_le_of_imp xs f hpq
      omega
    · have hv' : v ∈ xs := by
        rcases List.mem_cons.mp hv with h | h
        · exact absurd h.symm hxv
        · exact h
      by_cases hq : q x = true
      · have hp := hpq x hq
        simp only [List.filter_cons, hq, hp, if_pos, List.map_cons, List.sum_cons]
        have := ih hv'
        omega
      · by_cases hp : p x = true
        · simp only [List.filter_cons, hq, hp, if_pos, Bool.false_eq_true, if_false,
            List.map_cons, List.sum_cons]
          have := ih hv'
          omega
        · simp only [List.filter_cons, hq, hp, Bool.false_eq_true, if_false]
          exact ih hv'

theorem dinv_final {ν W : Type} [DecidableEq ν] [LinearOrderedAddCommMonoid W]
    {adj : ν → List (ν × W)} {cands : List ν} {s : ν} {cutoff : W}
    {dist : List (ν × W)} {seen : List (ν × W)}
    (inv : DInv adj cands s cutoff dist [] seen) (hnn : NonnegAdj adj) :
    DijkstraSpec adj s cutoff dist := by
  refine ⟨inv.nodup, ?_⟩
  intro v d
  constructor
  · intro h
    have hmem := mem_of_alookup_eq_some h
    obtain ⟨hsh, hco⟩ := inv.settled v d hmem
    rcases hco with hc | ⟨rfl, rfl⟩
    · exact Or.inr ⟨hsh, hc⟩
    · exact Or.inl ⟨rfl, rfl⟩
  · rintro (⟨rfl, rfl⟩ | ⟨hsh, hc⟩)
    · rcases inv.start with ⟨d0, hd0⟩ | hmem
      · have h0 := (inv.settled _ d0 hd0).1
        have hd00 : d0 = 0 :=
          le_antisymm (h0.2 0 PathTo.refl) (pathTo_nonneg hnn h0.1)
        subst hd00
        exact alookup_eq_some_of_mem_nodup inv.nodup hd0
      · simp at hmem
    · cases hlook : alookup v dist with
      | none =>
        obtain ⟨e, he, _⟩ := dinv_cover inv hnn hsh.1 hc hlook
        simp at he
      | some d' =>
        have hm := mem_of_alookup_eq_some hlook
        have hud : d' = d := isShortestDist_unique (inv.settled v d' hm).1 hsh
        rw [hud]

/-- Main loop theorem: from any invariant state with enough fuel, the loop
result satisfies the full characterization. -/
theorem dijkstraLoop_spec {ν W : Type} [DecidableEq ν] [LinearOrderedAddCommMonoid W]
    {adj : ν → List (ν × W)} {cands : List ν} {s : ν} {cutoff : W}
    (hnn : NonnegAdj adj) (Hadj : ∀ v, ∀ p ∈ adj v, p.1 ∈ cands) :
    ∀ (fuel : Nat) (dist : List (ν × W)) (fringe : List (W × ν)) (seen : List (ν × W)),
    DInv adj cands s cutoff dist fringe seen →
    phi adj cands dist fringe ≤ fuel →
    DijkstraSpec adj s cutoff (dijkstraLoop adj cutoff fuel dist fringe seen) := by
  intro fuel
  induction fuel with
  | zero =>
    intro dist fringe seen inv hphi
    have hfr : fringe = [] := by
      have : fringe.length = 0 := by
        unfold phi at hphi
        omega
      exact List.length_eq_zero.mp this
    subst hfr
    exact dinv_final inv hnn
  | succ fuel ih =>
    intro dist fringe seen inv hphi
    cases hpick : pickMin fringe with
    | none =>
      have hfr : fringe = [] := pickMin_eq_none.mp hpick
      subst hfr
      have heq : dijkstraLoop adj cutoff (fuel + 1) dist [] seen = dist := by
        simp [dijkstraLoop, pickMin]
      rw [heq]
      exact dinv_final inv hnn
    | some pr =>
      obtain ⟨⟨d, v⟩, rest⟩ := pr
      have hlen : fringe.length = rest.length + 1 := pickMin_length hpick
      by_cases hv : (alookup v dist).isSome
      · have heq : dijkstraLoop adj cutoff (fuel + 1) dist fringe seen =
            dijkstraLoop adj cutoff fuel dist rest seen := by
          simp [dijkstraLoop, hpick, hv]
        rw [heq]
        apply ih dist rest seen (dinv_skip inv hpick hv)
        unfold phi at hphi ⊢
        omega
      · have hvnone : alookup v dist = none :=
          Option.not_isSome_iff_eq_none.mp hv
        have heq : dijkstraLoop adj cutoff (fuel + 1) dist fringe seen =
            dijkstraLoop adj cutoff fuel (dist ++ [(v, d)])
              (relaxAll cutoff (dist ++ [(v, d)]) d (adj v) rest seen).1
              (relaxAll cutoff (dist ++ [(v, d)]) d (adj v) rest seen).2 := by
          simp [dijkstraLoop, hpick, hv]
        rw [heq]
        obtain ⟨inv', hlenf⟩ := dinv_settle inv hnn Hadj hpick hvnone
        apply ih _ _ _ inv'
        have hvc : v ∈ cands := inv.fringeCands (d, v) (pickMin_self_mem hpick)
        have hdrop := @sum_filter_drop _ cands
          (fun x => 1 + (adj x).length)
          (fun x => (alookup x dist).isNone)
          (fun x => (alookup x (dist ++ [(v, d)])).isNone)
          (fun x hx => by
            simp only [Option.isNone_iff_eq_none] at hx ⊢
            exact alookup_none_of_append_none hx)
          v hvc
          (by simp [hvnone])
          (by simp [alookup_append_singleton_self hvnone])
        have hbeta : ((fun x => 1 + (adj x).length) v) = 1 + (adj v).length := rfl
        rw [hbeta] at hdrop
        unfold phi at hphi ⊢
        omega

theorem sum_filter_le_sum {ν : Type} (cands : List ν) (f : ν → Nat) (q : ν → Bool) :
    ((cands.filter q).map f).sum ≤ (cands.map f).sum := by
  induction cands with
  | nil => simp
  | cons x xs ih =>
    by_cases hq : q x = true
    · simp only [List.filter_cons, hq, if_pos, List.map_cons, List.sum_cons]
      omega
    · simp only [List.filter_cons, hq, Bool.false_eq_true, if_false, List.map_cons,
        List.sum_cons]
      omega

/-- Master correctness theorem for the embedded
`nx.single_source_dijkstra_path_length`: on a well-formed graph (edge
endpoints are nodes) with nonnegative weights, the returned dict is exactly
the cutoff-truncated shortest-path distance map, with the source always
present at distance 0. -/
theorem single_source_dijkstra_path_length_spec {ν W : Type} [DecidableEq ν]
    [LinearOrderedAddCommMonoid W] (g : NXGraph ν W) (s : ν) (cutoff : W)
    (hwf : ∀ e ∈ g.edges, e.1 ∈ g.nodes ∧ e.2.1 ∈ g.nodes)
    (hnn : ∀ e ∈ g.edges, 0 ≤ e.2.2) :
    DijkstraSpec (adjOf g) s cutoff (single_source_dijkstra_path_length g s cutoff) := by
  have hnadj : NonnegAdj (adjOf g) := by
    intro v p hp
    simp only [adjOf, List.mem_filterMap] at hp
    obtain ⟨e, he, hcond⟩ := hp
    split at hcond
    · obtain rfl := (Option.some.injEq .. ▸ hcond :)
      exact hnn e he
    · split at hcond
      · obtain rfl := (Option.some.injEq .. ▸ hcond :)
        exact hnn e he
      · exact absurd hcond (by simp)
  have hadj : ∀ v, ∀ p ∈ adjOf g v, p.1 ∈ s :: g.nodes := by
    intro v p hp
    simp only [adjOf, List.mem_filterMap] at hp
    obtain ⟨e, he, hcond⟩ := hp
    split at hcond
    · obtain rfl := (Option.some.injEq .. ▸ hcond :)
      exact List.mem_cons_of_mem _ (hwf e he).2
    · split at hcond
      · obtain rfl := (Option.some.injEq .. ▸ hcond :)
        exact List.mem_cons_of_mem _ (hwf e he).1
      · exact absurd hcond (by simp)
  have inv0 : DInv (adjOf g) (s :: g.nodes) s cutoff [] [(0, s)] [(s, 0)] := by
    refine ⟨by simp, ?_, ?_, Or.inr (by simp), ?_, ?_, ?_⟩
    · intro v d h
      simp at h
    · intro e he
      simp only [List.mem_singleton] at he
      subst he
      exact ⟨PathTo.refl, Or.inr ⟨rfl, rfl⟩⟩
    · intro v dv h
      simp at h
    · intro u su hsu hnone
      by_cases hus : u = s
      · subst hus
        have hsu0 : su = 0 := by simpa [alookup] using hsu.symm
        subst hsu0
        exact ⟨(0, u), by simp, rfl, le_refl _⟩
      · simp [alookup, hus] at hsu
    · intro e he
      simp only [List.mem_singleton] at he
      subst he
      simp
  have hphi : phi (adjOf g) (s :: g.nodes) [] [((0 : W), s)] ≤
      dijkstraFuel (adjOf g) (s :: g.nodes) := by
    have := sum_filter_le_sum (s :: g.nodes) (fun x => 1 + (adjOf g x).length)
      (fun x => (alookup x ([] : List (ν × W))).isNone)
    unfold phi dijkstraFuel
    simp only [List.length_singleton]
    omega
  exact dijkstraLoop_spec hnadj hadj _ _ _ _ inv0 hphi

/-- Once a node is finalized its entry survives to the final result. -/
theorem dijkstraLoop_lookup_mono {ν W : Type} [DecidableEq ν]
    [LinearOrderedAddCommMonoid W] (adj : ν → List (ν × W)) (cutoff : W) :
    ∀ (fuel : Nat) (dist : List (ν × W)) (fringe : List (W × ν)) (seen : List (ν × W))
      {x : ν} {b : W}, alookup x dist = some b →
      alookup x (dijkstraLoop adj cutoff fuel dist fringe seen) = some b := by
  intro fuel
  induction fuel with
  | zero =>
    intro dist fringe seen x b h
    simpa [dijkstraLoop] using h
  | succ fuel ih =>
    intro dist fringe seen x b h
    cases hpick : pickMin fringe with
    | none =>
      simpa [dijkstraLoop, hpick] using h
    | some pr =>
      obtain ⟨⟨d, v⟩, rest⟩ := pr
      by_cases hv : (alookup v dist).isSome
      · have heq : dijkstraLoop adj cutoff (fuel + 1) dist fringe seen =
            dijkstraLoop adj cutoff fuel dist rest seen := by
          simp [dijkstraLoop, hpick, hv]
        rw [heq]
        exact ih dist rest seen h
      · have heq : dijkstraLoop adj cutoff (fuel + 1) dist fringe seen =
            dijkstraLoop adj cutoff fuel (dist ++ [(v, d)])
              (relaxAll cutoff (dist ++ [(v, d)]) d (adj v) rest seen).1
              (relaxAll cutoff (dist ++ [(v, d)]) d (adj v) rest seen).2 := by
          simp [dijkstraLoop, hpick, hv]
        rw [heq]
        exact ih _ _ _ (alookup_append_left _ h)

/-- The snapped origin is always finalized at distance 0, whatever the
cutoff: the first loop iteration pops the initial `(0, source)` entry. -/
theorem dijkstraLoop_source0 {ν W : Type} [DecidableEq ν] [LinearOrderedAddCommMonoid W]
    (adj : ν → List (ν × W)) (cutoff : W) (fuel : Nat) (s : ν) :
    alookup s (dijkstraLoop adj cutoff (fuel + 1) [] [(0, s)] [(s, 0)]) = some 0 := by
  have h1 : pickMin [((0 : W), s)] = some ((0, s), []) := by
    simp [pickMin]
  simp only [dijkstraLoop, h1]
  have h3 : alookup s ([] : List (ν × W)) = none := rfl
  rw [if_neg (by simp [h3])]
  refine dijkstraLoop_lookup_mono _ _ _ _ _ _ ?_
  simp [alookup]

theorem sssp_lookup_source {ν W : Type} [DecidableEq ν] [LinearOrderedAddCommMonoid W]
    (g : NXGraph ν W) (s : ν) (cutoff : W) :
    alookup s (single_source_dijkstra_path_length g s cutoff) = some 0 := by
  unfold single_source_dijkstra_path_length
  have h2 : dijkstraFuel (adjOf g) (s :: g.nodes) =
      (dijkstraFuel (adjOf g) (s :: g.nodes) - 1) + 1 := by
    unfold dijkstraFuel
    omega
  rw [h2]
  exact dijkstraLoop_source0 _ _ _ _

/-- The distance dict returned for a snapped origin is never empty. -/
theorem sssp_ne_nil {ν W : Type} [DecidableEq ν] [LinearOrderedAddCommMonoid W]
    (g : NXGraph ν W) (s : ν) (cutoff : W) :
    single_source_dijkstra_path_length g s cutoff ≠ [] := by
  intro h
  have := sssp_lookup_source g s cutoff
  rw [h] at this
  simp [alookup] at this

/-! ### Filtering one max-cutoff run versus re-running the traversal -/

theorem option_eq_of_some_iff {α : Type} {x y : Option α}
    (h : ∀ a, x = some a ↔ y = some a) : x = y := by
  cases x with
  | none =>
    cases y with
    | none => rfl
    | some b => exact ((h b).mpr rfl)
  | some a => exact ((h a).mp rfl).symm

theorem alookup_isSome_iff_mem_keys {ν β : Type} [DecidableEq ν]
    {l : List (ν × β)} {v : ν} :
    (alookup v l).isSome ↔ v ∈ l.map Prod.fst := by
  constructor
  · intro h
    obtain ⟨b, hb⟩ := Option.isSome_iff_exists.mp h
    exact List.mem_map.mpr ⟨(v, b), mem_of_alookup_eq_some hb, rfl⟩
  · intro h
    obtain ⟨⟨a, b⟩, hab, hfst⟩ := List.mem_map.mp h
    dsimp at hfst
    subst hfst
    exact alookup_isSome_of_mem hab

theorem alookup_filterLE {ν W : Type} [DecidableEq ν] [LinearOrder W]
    {dists : List (ν × W)} (hnd : (dists.map Prod.fst).Nodup) (d : W) (v : ν) (dv : W) :
    alookup v (filterLE dists d) = some dv ↔
      (alookup v dists = some dv ∧ dv ≤ d) := by
  induction dists with
  | nil => simp [filterLE, alookup]
  | cons hd tl ih =>
    obtain ⟨a, b⟩ := hd
    simp only [List.map_cons, List.nodup_cons] at hnd
    by_cases hva : v = a
    · subst hva
      by_cases hb : b ≤ d
      · simp only [filterLE, List.filter_cons, decide_eq_true_eq, hb, if_pos]
        simp only [alookup, if_pos rfl]
        constructor
        · rintro h
          obtain rfl := (Option.some.injEq .. ▸ h :)
          exact ⟨rfl, hb⟩
        · rintro ⟨h, _⟩
          exact h
      · have hnot : alookup v (filterLE tl d) = none := by
          rw [alookup_eq_none]
          intro b' hb'
          have : (v, b') ∈ tl := List.mem_of_mem_filter hb'
          exact hnd.1 (List.mem_map.mpr ⟨(v, b'), this, rfl⟩)
        have hfc : filterLE ((v, b) :: tl) d = filterLE tl d := by
          simp only [filterLE, List.filter_cons]
          rw [if_neg (by simpa using hb)]
        rw [hfc, hnot]
        simp only [alookup, if_pos rfl]
        constructor
        · intro h
          simp at h
        · rintro ⟨h, hle⟩
          obtain rfl := (Option.some.injEq .. ▸ h :)
          exact absurd hle hb
    · have hstep : alookup v (filterLE ((a, b) :: tl) d) = alookup v (filterLE tl d) := by
        simp only [filterLE, List.filter_cons, decide_eq_true_eq]
        by_cases hb : b ≤ d
        · rw [if_pos hb]
          simp [alookup, hva]
        · rw [if_neg hb]
      rw [hstep]
      simp only [alookup, if_neg hva]
      exact ih hnd.2

/-- The single-traversal reuse theorem at the level of the embedded
Dijkstra: for nonnegative thresholds `d ≤ dmax` on a well-formed graph, the
`distance ≤ d` filter of the max-cutoff run agrees entrywise with an
independent run at cutoff `d`. -/
theorem sssp_filter_eq {ν W : Type} [DecidableEq ν] [LinearOrderedAddCommMonoid W]
    (g : NXGraph ν W) (s : ν) {d dmax : W}
    (hwf : ∀ e ∈ g.edges, e.1 ∈ g.nodes ∧ e.2.1 ∈ g.nodes)
    (hnn : ∀ e ∈ g.edges, 0 ≤ e.2.2) (hd0 : 0 ≤ d) (hdm : d ≤ dmax) :
    ∀ v, alookup v (filterLE (single_source_dijkstra_path_length g s dmax) d) =
      alookup v (single_source_dijkstra_path_length g s d) := by
  obtain ⟨hnd1, hiff1⟩ := single_source_dijkstra_path_length_spec g s dmax hwf hnn
  obtain ⟨hnd2, hiff2⟩ := single_source_dijkstra_path_length_spec g s d hwf hnn
  intro v
  apply option_eq_of_some_iff
  intro dv
  rw [alookup_filterLE hnd1, hiff1, hiff2]
  constructor
  · rintro ⟨⟨rfl, rfl⟩ | ⟨hsh, _⟩, hle⟩
    · exact Or.inl ⟨rfl, rfl⟩
    · exact Or.inr ⟨hsh, hle⟩
  · rintro (⟨rfl, rfl⟩ | ⟨hsh, hle⟩)
    · exact ⟨Or.inl ⟨rfl, rfl⟩, hd0⟩
    · exact ⟨Or.inr ⟨hsh, le_trans hle hdm⟩, hle⟩

/-- The nested geometry/part/pair folds equal one flat fold over the
segment list. -/
theorem build_eq_foldl_segments {α W : Type} [DecidableEq α] (segLen : α → α → W)
    (roads : List (Option (LineGeom α))) :
    build_graph_from_roads segLen roads =
      (segmentsOf roads).foldl (fun g p => addSegment segLen g p.1 p.2) ⟨[], []⟩ := by
  have hpart : ∀ (parts : List (List α)) (g : NXGraph α W),
      parts.foldl (processPart segLen) g =
        (partSegments parts).foldl (fun g p => addSegment segLen g p.1 p.2) g := by
    intro parts
    induction parts with
    | nil => intro g; simp [partSegments]
    | cons cs rest ih =>
      intro g
      simp only [List.foldl_cons, partSegments, List.map_cons, List.flatten_cons,
        List.foldl_append]
      exact ih _
  have hroad : ∀ (geo : Option (LineGeom α)) (g : NXGraph α W),
      (match geo with
        | none => g
        | some geo => (lineParts geo).foldl (processPart segLen) g) =
        (roadSegments geo).foldl (fun g p => addSegment segLen g p.1 p.2) g := by
    intro geo g
    cases geo with
    | none => simp [roadSegments]
    | some geo => exact hpart _ _
  unfold build_graph_from_roads segmentsOf
  generalize (⟨[], []⟩ : NXGraph α W) = g0
  induction roads generalizing g0 with
  | nil => simp
  | cons r rest ih =>
    simp only [List.foldl_cons, List.map_cons, List.flatten_cons, List.foldl_append]
    rw [hroad r g0]
    exact ih _

theorem add_node_nodes {α W : Type} [DecidableEq α] (g : NXGraph α W) (v x : α) :
    x ∈ (add_node g v).nodes ↔ x = v ∨ x ∈ g.nodes := by
  unfold add_node
  split
  · rename_i hmem
    constructor
    · exact fun h => Or.inr h
    · rintro (rfl | h)
      · exact hmem
      · exact h
  · simp only [List.mem_append, List.mem_singleton]
    tauto

theorem add_node_edges {α W : Type} [DecidableEq α] (g : NXGraph α W) (v : α) :
    (add_node g v).edges = g.edges := by
  unfold add_node
  split <;> rfl

theorem add_node_nodup {α W : Type} [DecidableEq α] {g : NXGraph α W} (v : α)
    (h : g.nodes.Nodup) : (add_node g v).nodes.Nodup := by
  unfold add_node
  split
  · exact h
  · rename_i hmem
    rw [List.nodup_append]
    refine ⟨h, List.nodup_singleton v, ?_⟩
    intro x hx hx'
    simp only [List.mem_singleton] at hx'
    subst hx'
    exact hmem hx

theorem add_edge_nodes {α W : Type} [DecidableEq α] (g : NXGraph α W) (u v x : α) (w : W) :
    x ∈ (add_edge g u v w).nodes ↔ x = u ∨ x = v ∨ x ∈ g.nodes := by
  have hn : ∀ h : NXGraph α W, h = add_edge g u v w →
      h.nodes = (add_node (add_node g u) v).nodes := by
    intro h heq
    subst heq
    simp only [add_edge]
    split <;> rfl
  rw [hn _ rfl, add_node_nodes, add_node_nodes]
  tauto

theorem add_edge_nodup {α W : Type} [DecidableEq α] {g : NXGraph α W} (u v : α) (w : W)
    (h : g.nodes.Nodup) : (add_edge g u v w).nodes.Nodup := by
  have hn : (add_edge g u v w).nodes = (add_node (add_node g u) v).nodes := by
    simp only [add_edge]
    split <;> rfl
  rw [hn]
  exact add_node_nodup _ (add_node_nodup _ h)

theorem addSegment_nodes {α W : Type} [DecidableEq α] (segLen : α → α → W)
    (g : NXGraph α W) (u v x : α) :
    x ∈ (addSegment segLen g u v).nodes ↔ x = u ∨ x = v ∨ x ∈ g.nodes := by
  unfold addSegment
  rw [add_edge_nodes]
  simp only [add_node_nodes]
  tauto

theorem addSegment_nodup {α W : Type} [DecidableEq α] (segLen : α → α → W)
    {g : NXGraph α W} (u v : α) (h : g.nodes.Nodup) :
    (addSegment segLen g u v).nodes.Nodup :=
  add_edge_nodup _ _ _ (add_node_nodup _ (add_node_nodup _ h))

theorem edgeMatches_comm {α W : Type} [DecidableEq α] (u v : α) (e : α × α × W) :
    edgeMatches u v e = edgeMatches v u e := by
  unfold edgeMatches
  exact decide_eq_decide.mpr (by tauto)

theorem edgeMatches_reweight {α W : Type} [DecidableEq α] (u v : α) (w : W)
    (e : α × α × W) :
    edgeMatches u v (if edgeMatches u v e then (e.1, e.2.1, w) else e) =
      edgeMatches u v e := by
  by_cases hm : edgeMatches u v e = true
  · rw [if_pos hm]
    rw [hm]
    exact hm
  · rw [if_neg hm]

theorem add_edge_mem_edges {α W : Type} [DecidableEq α] {g : NXGraph α W}
    {u v : α} {w : W} {e : α × α × W} (h : e ∈ (add_edge g u v w).edges) :
    (∃ e' ∈ g.edges, e = e' ∧ edgeMatches u v e' = false) ∨
    (∃ e' ∈ g.edges, edgeMatches u v e' = true ∧ e = (e'.1, e'.2.1, w)) ∨
    e = (u, v, w) := by
  simp only [add_edge, add_node_edges] at h
  split at h
  · dsimp at h
    obtain ⟨e', he', heq⟩ := List.mem_map.mp h
    by_cases hm : edgeMatches u v e' = true
    · rw [if_pos hm] at heq
      exact Or.inr (Or.inl ⟨e', he', hm, heq.symm⟩)
    · rw [if_neg hm] at heq
      subst heq
      exact Or.inl ⟨e', he', rfl, Bool.eq_false_iff.mpr hm⟩
  · rename_i hany
    dsimp at h
    rcases List.mem_append.mp h with h' | h'
    · refine Or.inl ⟨e, h', rfl, ?_⟩
      cases hb : edgeMatches u v e with
      | false => rfl
      | true => exact absurd (List.any_eq_true.mpr ⟨e, h', hb⟩) hany
    · simp only [List.mem_singleton] at h'
      exact Or.inr (Or.inr h')

theorem add_edge_weight_self {α W : Type} [DecidableEq α] (g : NXGraph α W)
    (u v : α) (w : W) : edgeWeight (add_edge g u v w) u v = some w := by
  simp only [edgeWeight, add_edge, add_node_edges]
  split
  · rename_i hany
    dsimp only
    rw [List.find?_map]
    have hcong : (edgeMatches u v ∘ fun e =>
        if edgeMatches u v e = true then (e.1, e.2.1, w) else e) = edgeMatches u v := by
      funext e
      exact edgeMatches_reweight u v w e
    rw [hcong]
    obtain ⟨e0, he0, hp0⟩ := List.any_eq_true.mp hany
    cases hfind : g.edges.find? (edgeMatches u v) with
    | none => exact absurd hp0 (List.find?_eq_none.mp hfind e0 he0)
    | some e1 =>
      have hp1 : edgeMatches u v e1 = true := List.find?_some hfind
      simp [hp1]
  · rename_i hany
    dsimp only
    rw [List.find?_append]
    have hnone : g.edges.find? (edgeMatches u v) = none := by
      rw [List.find?_eq_none]
      intro x hx hpx
      exact hany (List.any_eq_true.mpr ⟨x, hx, hpx⟩)
    rw [hnone]
    have : edgeMatches u v ((u, v, w) : α × α × W) = true := by
      unfold edgeMatches
      exact decide_eq_true (Or.inl ⟨rfl, rfl⟩)
    simp [List.find?, this]

theorem edgeWeight_isSome_iff {α W : Type} [DecidableEq α] (g : NXGraph α W) (u v : α) :
    (edgeWeight g u v).isSome ↔ ∃ e ∈ g.edges, edgeMatches u v e = true := by
  unfold edgeWeight
  cases hf : g.edges.find? (edgeMatches u v) with
  | none =>
    simp only [hf, Option.map_none']
    constructor
    · intro h
      simp at h
    · rintro ⟨e, he, hm⟩
      exact absurd hm (List.find?_eq_none.mp hf e he)
  | some e =>
    simp only [hf, Option.map_some']
    constructor
    · intro _
      exact ⟨e, List.mem_of_find?_eq_some hf, List.find?_some hf⟩
    · intro _
      rfl

theorem edgeMatches_of_eq_endpoints {α W : Type} [DecidableEq α] (a b : α)
    {e e' : α × α × W} (h1 : e'.1 = e.1) (h2 : e'.2.1 = e.2.1) :
    edgeMatches a b e' = edgeMatches a b e := by
  unfold edgeMatches
  rw [h1, h2]

theorem addSegment_weight_mono {α W : Type} [DecidableEq α] (segLen : α → α → W)
    (g : NXGraph α W) (u v a b : α) (h : (edgeWeight g a b).isSome) :
    (edgeWeight (addSegment segLen g u v) a b).isSome := by
  rw [edgeWeight_isSome_iff] at h ⊢
  obtain ⟨e, he, hm⟩ := h
  unfold addSegment
  simp only [add_edge, add_node_edges]
  split
  · dsimp only
    refine ⟨(fun e => if edgeMatches u v e = true then (e.1, e.2.1, segLen u v) else e) e,
      List.mem_map_of_mem _ he, ?_⟩
    have h1 : ((fun e => if edgeMatches u v e = true then (e.1, e.2.1, segLen u v) else e) e).1
        = e.1 := by
      dsimp only
      split <;> rfl
    have h2 : ((fun e => if edgeMatches u v e = true then (e.1, e.2.1, segLen u v) else e) e).2.1
        = e.2.1 := by
      dsimp only
      split <;> rfl
    rw [edgeMatches_of_eq_endpoints a b h1 h2]
    exact hm
  · exact ⟨e, List.mem_append_left _ he, hm⟩

theorem addSegment_weight_self {α W : Type} [DecidableEq α] (segLen : α → α → W)
    (g : NXGraph α W) (u v : α) :
    edgeWeight (addSegment segLen g u v) u v = some (segLen u v) :=
  add_edge_weight_self _ u v (segLen u v)

theorem addSegment_edges_ok {α W : Type} [DecidableEq α] {segLen : α → α → W}
    {S : List (α × α)} (hsym : ∀ p ∈ S, segLen p.1 p.2 = segLen p.2 p.1)
    {g : NXGraph α W} (hg : ∀ e ∈ g.edges, EdgeOk segLen S e)
    {u v : α} (huv : (u, v) ∈ S) :
    ∀ e ∈ (addSegment segLen g u v).edges, EdgeOk segLen S e := by
  intro e he
  unfold addSegment at he
  rcases add_edge_mem_edges he with ⟨e', he', rfl, _⟩ | ⟨e', he', hm, rfl⟩ | rfl
  · rw [add_node_edges, add_node_edges] at he'
    exact hg _ he'
  · rw [add_node_edges, add_node_edges] at he'
    obtain ⟨hpair, _⟩ := hg e' he'
    refine ⟨hpair, ?_⟩
    rcases of_decide_eq_true hm with ⟨h1, h2⟩ | ⟨h1, h2⟩
    · dsimp
      rw [h1, h2]
    · dsimp
      rw [h1, h2]
      exact hsym (u, v) huv
  · exact ⟨Or.inl huv, rfl⟩

theorem edgeWeight_eq_of_ok {α W : Type} [DecidableEq α] {segLen : α → α → W}
    {S : List (α × α)} (hsym : ∀ p ∈ S, segLen p.1 p.2 = segLen p.2 p.1)
    {g : NXGraph α W} (hg : ∀ e ∈ g.edges, EdgeOk segLen S e)
    {a b : α} (hab : (a, b) ∈ S) (hsome : (edgeWeight g a b).isSome) :
    edgeWeight g a b = some (segLen a b) := by
  unfold edgeWeight at hsome ⊢
  cases hf : g.edges.find? (edgeMatches a b) with
  | none =>
    exfalso
    rw [hf] at hsome
    simp at hsome
  | some e =>
    have hm : edgeMatches a b e = true := List.find?_some hf
    have hmem : e ∈ g.edges := List.mem_of_find?_eq_some hf
    obtain ⟨_, hwt⟩ := hg e hmem
    simp only [Option.map_some']
    congr 1
    rw [hwt]
    rcases of_decide_eq_true hm with ⟨h1, h2⟩ | ⟨h1, h2⟩
    · rw [h1, h2]
    · rw [h1, h2]
      exact (hsym (a, b) hab).symm

/-! Fold versions over a segment list. -/

theorem foldl_addSegment_nodes {α W : Type} [DecidableEq α] (segLen : α → α → W) :
    ∀ (L : List (α × α)) (g : NXGraph α W) (x : α),
    (x ∈ (L.foldl (fun g p => addSegment segLen g p.1 p.2) g).nodes ↔
      x ∈ g.nodes ∨ ∃ p ∈ L, x = p.1 ∨ x = p.2) := by
  intro L
  induction L with
  | nil => simp
  | cons p L ih =>
    intro g x
    simp only [List.foldl_cons]
    rw [ih]
    rw [addSegment_nodes]
    simp only [List.mem_cons]
    constructor
    · rintro ((h | h | h) | ⟨q, hq, hxq⟩)
      · exact Or.inr ⟨p, Or.inl rfl, Or.inl h⟩
      · exact Or.inr ⟨p, Or.inl rfl, Or.inr h⟩
      · exact Or.inl h
      · exact Or.inr ⟨q, Or.inr hq, hxq⟩
    · rintro (h | ⟨q, (rfl | hq), hxq⟩)
      · exact Or.inl (Or.inr (Or.inr h))
      · rcases hxq with h | h
        · exact Or.inl (Or.inl h)
        · exact Or.inl (Or.inr (Or.inl h))
      · exact Or.inr ⟨q, hq, hxq⟩

theorem foldl_addSegment_nodup {α W : Type} [DecidableEq α] (segLen : α → α → W) :
    ∀ (L : List (α × α)) (g : NXGraph α W), g.nodes.Nodup →
      (L.foldl (fun g p => addSegment segLen g p.1 p.2) g).nodes.Nodup := by
  intro L
  induction L with
  | nil => exact fun g h => h
  | cons p L ih =>
    intro g h
    exact ih _ (addSegment_nodup _ _ _ h)

theorem foldl_addSegment_edges_ok {α W : Type} [DecidableEq α] {segLen : α → α → W}
    {S : List (α × α)} (hsym : ∀ p ∈ S, segLen p.1 p.2 = segLen p.2 p.1) :
    ∀ (L : List (α × α)), (∀ p ∈ L, p ∈ S) →
    ∀ (g : NXGraph α W), (∀ e ∈ g.edges, EdgeOk segLen S e) →
    ∀ e ∈ (L.foldl (fun g p => addSegment segLen g p.1 p.2) g).edges,
      EdgeOk segLen S e := by
  intro L
  induction L with
  | nil => exact fun _ g hg => hg
  | cons p L ih =>
    intro hL g hg
    simp only [List.foldl_cons]
    exact ih (fun q hq => hL q (List.mem_cons_of_mem _ hq)) _
      (addSegment_edges_ok hsym hg (hL p (List.mem_cons_self _ _)))

theorem foldl_addSegment_weight_mono {α W : Type} [DecidableEq α] (segLen : α → α → W) :
    ∀ (L : List (α × α)) (g : NXGraph α W) (a b : α),
      (edgeWeight g a b).isSome →
      (edgeWeight (L.foldl (fun g p => addSegment segLen g p.1 p.2) g) a b).isSome := by
  intro L
  induction L with
  | nil => exact fun g a b h => h
  | cons p L ih =>
    intro g a b h
    exact ih _ a b (addSegment_weight_mono _ _ _ _ a b h)

theorem foldl_addSegment_present {α W : Type} [DecidableEq α] (segLen : α → α → W) :
    ∀ (L : List (α × α)) (g : NXGraph α W), ∀ p ∈ L,
      (edgeWeight (L.foldl (fun g q => addSegment segLen g q.1 q.2) g) p.1 p.2).isSome := by
  intro L
  induction L with
  | nil =>
    intro g p hp
    simp at hp
  | cons q L ih =>
    intro g p hp
    simp only [List.foldl_cons]
    rcases List.mem_cons.mp hp with rfl | hp'
    · apply foldl_addSegment_weight_mono
      rw [addSegment_weight_self]
      rfl
    · exact ih _ p hp'

/-- Full structural specification of `build_graph_from_roads`: nodes are
exactly the deduplicated endpoint coordinates of the processed segments,
and edges are exactly the processed segments carrying their segment
length. -/
theorem build_graph_spec {α W : Type} [DecidableEq α] (segLen : α → α → W)
    (roads : List (Option (LineGeom α)))
    (hsym : ∀ p ∈ segmentsOf roads, segLen p.1 p.2 = segLen p.2 p.1) :
    (∀ x, x ∈ (build_graph_from_roads segLen roads).nodes ↔
      ∃ p ∈ segmentsOf roads, x = p.1 ∨ x = p.2) ∧
    (build_graph_from_roads segLen roads).nodes.Nodup ∧
    (∀ p ∈ segmentsOf roads,
      edgeWeight (build_graph_from_roads segLen roads) p.1 p.2 =
        some (segLen p.1 p.2)) ∧
    (∀ e ∈ (build_graph_from_roads segLen roads).edges,
      ((e.1, e.2.1) ∈ segmentsOf roads ∨ (e.2.1, e.1) ∈ segmentsOf roads) ∧
        e.2.2 = segLen e.1 e.2.1) := by
  rw [build_eq_foldl_segments]
  have hok : ∀ e ∈ ((segmentsOf roads).foldl
      (fun g p => addSegment segLen g p.1 p.2) ⟨[], []⟩).edges,
      EdgeOk segLen (segmentsOf roads) e :=
    foldl_addSegment_edges_ok hsym _ (fun _ hp => hp) _ (by intro e he; simp at he)
  refine ⟨?_, ?_, ?_, hok⟩
  · intro x
    rw [foldl_addSegment_nodes]
    simp
  · exact foldl_addSegment_nodup _ _ _ (by simp)
  · intro p hp
    exact edgeWeight_eq_of_ok hsym hok hp (foldl_addSegment_present _ _ _ p hp)

/-- Null geometries are skipped: the build over the raw collection equals
the build over the collection with null entries removed. -/
theorem build_graph_skips_null {α W : Type} [DecidableEq α] (segLen : α → α → W)
    (roads : List (Option (LineGeom α))) :
    build_graph_from_roads segLen roads =
      build_graph_from_roads segLen ((roads.filterMap id).map some) := by
  rw [build_eq_foldl_segments, build_eq_foldl_segments]
  have hseg : segmentsOf ((roads.filterMap id).map some) = segmentsOf roads := by
    unfold segmentsOf
    induction roads with
    | nil => rfl
    | cons r rest ih =>
      cases r with
      | none =>
        simp only [List.filterMap_cons, id]
        rw [show (List.map roadSegments (none :: rest)).flatten =
          (List.map roadSegments rest).flatten by simp [roadSegments]]
        exact ih
      | some geo =>
        simp only [List.filterMap_cons, id, List.map_cons, List.flatten_cons]
        rw [ih]
  rw [hseg]

/-- An empty geometry collection yields the empty graph. -/
theorem build_graph_empty {α W : Type} [DecidableEq α] (segLen : α → α → W) :
    build_graph_from_roads segLen ([] : List (Option (LineGeom α))) =
      ⟨[], []⟩ := rfl

/-- An all-null geometry collection yields the empty graph, not an error. -/
theorem build_graph_all_null {α W : Type} [DecidableEq α] (segLen : α → α → W)
    (roads : List (Option (LineGeom α))) (hnull : ∀ r ∈ roads, r = none) :
    build_graph_from_roads segLen roads = ⟨[], []⟩ := by
  rw [build_graph_skips_null]
  have : roads.filterMap id = [] := by
    rw [List.filterMap_eq_nil_iff]
    intro r hr
    rw [hnull r hr]
    rfl
  rw [this]
  rfl

/-! ### Properties of `maxByArea` -/

theorem maxByArea_foldl_spec {α : Type} [Inhabited α] :
    ∀ (xs : List (SGeom α)) (acc : SGeom α),
      (xs.foldl (fun acc g => if acc.area < g.area then g else acc) acc ∈ acc :: xs) ∧
      acc.area ≤ (xs.foldl (fun acc g => if acc.area < g.area then g else acc) acc).area ∧
      ∀ q ∈ xs, q.area ≤ (xs.foldl (fun acc g => if acc.area < g.area then g else acc) acc).area := by
  intro xs
  induction xs with
  | nil =>
    intro acc
    refine ⟨List.mem_cons_self _ _, le_refl _, ?_⟩
    intro q hq
    simp at hq
  | cons g xs ih =>
    intro acc
    simp only [List.foldl_cons]
    obtain ⟨hmem, hle, hall⟩ := ih (if acc.area < g.area then g else acc)
    have hacc : acc.area ≤ (if acc.area < g.area then g else acc).area := by
      split
      · rename_i h
        exact le_of_lt h
      · exact le_refl _
    have hg : g.area ≤ (if acc.area < g.area then g else acc).area := by
      split
      · exact le_refl _
      · rename_i h
        exact le_of_not_lt h
    refine ⟨?_, le_trans hacc hle, ?_⟩
    · rcases List.mem_cons.mp hmem with h | h
      · rw [h]
        split
        · exact List.mem_cons_of_mem _ (List.mem_cons_self _ _)
        · exact List.mem_cons_self _ _
      · exact List.mem_cons_of_mem _ (List.mem_cons_of_mem _ h)
    · intro q hq
      rcases List.mem_cons.mp hq with rfl | hq'
      · exact le_trans hg hle
      · exact hall q hq'

theorem maxByArea_mem {α : Type} [Inhabited α] {l : List (SGeom α)} (h : l ≠ []) :
    maxByArea l ∈ l := by
  cases l with
  | nil => exact absurd rfl h
  | cons x xs => exact (maxByArea_foldl_spec xs x).1

theorem maxByArea_max {α : Type} [Inhabited α] {l : List (SGeom α)} (q : SGeom α)
    (hq : q ∈ l) : q.area ≤ (maxByArea l).area := by
  cases l with
  | nil => simp at hq
  | cons x xs =>
    obtain ⟨_, hle, hall⟩ := maxByArea_foldl_spec xs x
    rcases List.mem_cons.mp hq with rfl | hq'
    · exact hle
    · exact hall q hq'

/-- C5: the buffer-mode boundary returns no output on empty input or an
empty smoothed result, and otherwise a single polygon built from the outer
ring only (no interior holes) of the largest-area part of the morphological
result — never a multi-part geometry or a polygon with holes. -/
theorem claim_C5_buffer_output_shape {σ α : Type} [Inhabited α]
    (unionBufferSmooth : List σ → ℚ → ℚ → SGeom α) (segs : List σ)
    (edge_width_m smooth_m : ℚ) :
    (segs = [] →
      buffer_isochrone_from_segments unionBufferSmooth segs edge_width_m smooth_m = none) ∧
    ((unionBufferSmooth segs edge_width_m smooth_m).is_empty = true →
      buffer_isochrone_from_segments unionBufferSmooth segs edge_width_m smooth_m = none) ∧
    (buffer_isochrone_from_segments unionBufferSmooth segs edge_width_m smooth_m = none ∨
      ∃ shell, buffer_isochrone_from_segments unionBufferSmooth segs edge_width_m smooth_m =
        some ⟨shell, []⟩) ∧
    (segs ≠ [] → (unionBufferSmooth segs edge_width_m smooth_m).is_empty = false →
      (unionBufferSmooth segs edge_width_m smooth_m).geom_type = "Polygon" →
      buffer_isochrone_from_segments unionBufferSmooth segs edge_width_m smooth_m =
        some ⟨(unionBufferSmooth segs edge_width_m smooth_m).exterior, []⟩) ∧
    (segs ≠ [] → (unionBufferSmooth segs edge_width_m smooth_m).is_empty = false →
      (unionBufferSmooth segs edge_width_m smooth_m).geom_type = "MultiPolygon" →
      (unionBufferSmooth segs edge_width_m smooth_m).geoms ≠ [] →
      ∃ part ∈ (unionBufferSmooth segs edge_width_m smooth_m).geoms,
        (∀ q ∈ (unionBufferSmooth segs edge_width_m smooth_m).geoms, q.area ≤ part.area) ∧
        buffer_isochrone_from_segments unionBufferSmooth segs edge_width_m smooth_m =
          some ⟨part.exterior, []⟩) := by
  refine ⟨?_, ?_, ?_, ?_, ?_⟩
  · intro h
    subst h
    rfl
  · intro h
    unfold buffer_isochrone_from_segments
    by_cases hs : segs.isEmpty
    · rw [if_pos hs]
    · rw [if_neg hs, if_pos h]
  · unfold buffer_isochrone_from_segments
    by_cases hs : segs.isEmpty
    · rw [if_pos hs]
      exact Or.inl rfl
    · rw [if_neg hs]
      by_cases he : (unionBufferSmooth segs edge_width_m smooth_m).is_empty = true
      · rw [if_pos he]
        exact Or.inl rfl
      · rw [if_neg he]
        by_cases hp : (unionBufferSmooth segs edge_width_m smooth_m).geom_type = "Polygon"
        · rw [if_pos hp]
          exact Or.inr ⟨_, rfl⟩
        · rw [if_neg hp]
          by_cases hmp : (unionBufferSmooth segs edge_width_m smooth_m).geom_type = "MultiPolygon"
          · rw [if_pos hmp]
            exact Or.inr ⟨_, rfl⟩
          · rw [if_neg hmp]
            by_cases hpl : ((unionBufferSmooth segs edge_width_m smooth_m).geoms.filter
                fun g => decide (g.geom_type = "Polygon")).isEmpty
            · rw [if_pos hpl]
              exact Or.inl rfl
            · rw [if_neg hpl]
              exact Or.inr ⟨_, rfl⟩
  · intro hs he hp
    unfold buffer_isochrone_from_segments
    rw [if_neg (by simpa [List.isEmpty_iff] using hs), if_neg (by simp [he]), if_pos hp]
    rfl
  · intro hs he hmp hgs
    refine ⟨maxByArea (unionBufferSmooth segs edge_width_m smooth_m).geoms,
      maxByArea_mem hgs, fun q hq => maxByArea_max q hq, ?_⟩
    unfold buffer_isochrone_from_segments
    rw [if_neg (by simpa [List.isEmpty_iff] using hs), if_neg (by simp [he]),
      if_neg (by simp [hmp]), if_pos hmp]
    rfl

/-- Concrete instantiation of the C5 theorem: the empty segment list
yields no output. -/
theorem claim_C5_buffer_output_shape_witness :
    buffer_isochrone_from_segments
      (fun _ _ _ => SGeom.mk "Polygon" false 1 (0 : Nat) []) ([] : List Nat) 1 1 = none :=
  (claim_C5_buffer_output_shape (fun _ _ _ => SGeom.mk "Polygon" false 1 (0 : Nat) [])
    [] 1 1).1 rfl

/-! ### Evaluation lemmas for the concave mode -/

theorem to_polygon_polygon {π α : Type} [Inhabited α] (ops : ConcaveOps π α)
    (pts : List π) {shape : SGeom α} (hemp : shape.is_empty = false)
    (ht : shape.geom_type = "Polygon") : to_polygon ops pts shape = some shape := by
  unfold to_polygon
  rw [if_neg (by simp [hemp]), if_pos ht]

theorem to_polygon_degenerate {π α : Type} [Inhabited α] (ops : ConcaveOps π α)
    (pts : List π) {shape : SGeom α} (hemp : shape.is_empty = false)
    (hdeg : shape.geom_type = "Point" ∨ shape.geom_type = "MultiPoint" ∨
      shape.geom_type = "LineString" ∨ shape.geom_type = "MultiLineString")
    (hch : ¬ (ops.convexHullPts pts).geom_type = "Polygon") :
    to_polygon ops pts shape = some (ops.bufferG (ops.convexHullPts pts) 1) := by
  unfold to_polygon
  have hnp : ¬ shape.geom_type = "Polygon" := by
    rcases hdeg with h | h | h | h <;> simp [h]
  have hnmp : ¬ shape.geom_type = "MultiPolygon" := by
    rcases hdeg with h | h | h | h <;> simp [h]
  rw [if_neg (by simp [hemp]), if_neg hnp, if_neg hnmp, if_pos hdeg, if_neg hch]

theorem concave_small_eval {π α : Type} [Inhabited α] (ops : ConcaveOps π α)
    (pts : List π) (alpha : Option ℚ) (h1 : ¬ pts.length = 0) (h4 : pts.length < 4) :
    concave_isochrone_from_subgraph true ops pts alpha =
      match to_polygon ops pts (ops.convexHullPts pts) with
      | none => .ok none
      | some poly =>
        if 0 < (ops.convexHullPts pts).area ∧
            poly.area < (0.05 : ℚ) * (ops.convexHullPts pts).area then
          .ok (to_polygon ops pts (ops.convexHullPts pts))
        else .ok (some poly) := by
  unfold concave_isochrone_from_subgraph
  dsimp only
  rw [if_neg (by simp), if_neg h1, if_pos h4]

/-- C6 (amended): with at least one and fewer than four reachable nodes the
result is always derived from the convex hull, but it is the hull itself
only when the hull is a polygon; a degenerate (point/line) hull is first
buffered by 1.0, so the returned geometry is then the buffered hull, not
the hull. -/
theorem claim_C6_concave_small_amended {π α : Type} [Inhabited α]
    (ops : ConcaveOps π α) (pts : List π) (alpha : Option ℚ)
    (h1 : 1 ≤ pts.length) (h4 : pts.length < 4) :
    ((ops.convexHullPts pts).is_empty = false →
      (ops.convexHullPts pts).geom_type = "Polygon" →
      concave_isochrone_from_subgraph true ops pts alpha =
        .ok (some (ops.convexHullPts pts))) ∧
    ((ops.convexHullPts pts).is_empty = false →
      ((ops.convexHullPts pts).geom_type = "Point" ∨
        (ops.convexHullPts pts).geom_type = "MultiPoint" ∨
        (ops.convexHullPts pts).geom_type = "LineString" ∨
        (ops.convexHullPts pts).geom_type = "MultiLineString") →
      concave_isochrone_from_subgraph true ops pts alpha =
        .ok (some (ops.bufferG (ops.convexHullPts pts) 1))) := by
  have h1' : ¬ pts.length = 0 := by omega
  constructor
  · intro hemp hpoly
    rw [concave_small_eval ops pts alpha h1' h4,
      to_polygon_polygon ops pts hemp hpoly]
    show (if 0 < (ops.convexHullPts pts).area ∧
        (ops.convexHullPts pts).area < (0.05 : ℚ) * (ops.convexHullPts pts).area then
        Except.ok (some (ops.convexHullPts pts))
      else Except.ok (some (ops.convexHullPts pts))) =
      Except.ok (some (ops.convexHullPts pts))
    split <;> rfl
  · intro hemp hdeg
    have hch : ¬ (ops.convexHullPts pts).geom_type = "Polygon" := by
      rcases hdeg with h | h | h | h <;> simp [h]
    rw [concave_small_eval ops pts alpha h1' h4,
      to_polygon_degenerate ops pts hemp hdeg hch]
    show (if 0 < (ops.convexHullPts pts).area ∧
        (ops.bufferG (ops.convexHullPts pts) 1).area <
          (0.05 : ℚ) * (ops.convexHullPts pts).area then
        Except.ok (some (ops.bufferG (ops.convexHullPts pts) 1))
      else Except.ok (some (ops.bufferG (ops.convexHullPts pts) 1))) =
      Except.ok (some (ops.bufferG (ops.convexHullPts pts) 1))
    split <;> rfl

/-- C6 as stated is false: for two reachable nodes the convex hull is a
line string, and concave mode returns that hull buffered by 1.0 — a
different geometry — rather than the convex hull itself. -/
theorem claim_C6_concave_small_counterexample :
    concave_isochrone_from_subgraph true opsDegenerateHull [0, 1] none =
      .ok (some (SGeom.mk "Polygon" false 3 99 [])) ∧
    opsDegenerateHull.convexHullPts [0, 1] = SGeom.mk "LineString" false 0 0 [] ∧
    SGeom.mk "Polygon" false 3 (99 : Nat) [] ≠ SGeom.mk "LineString" false 0 0 [] := by
  refine ⟨rfl, rfl, ?_⟩
  intro h
  exact absurd (congrArg SGeom.geom_type h) (by decide)

theorem claim_C6_concave_small_amended_witness :
    concave_isochrone_from_subgraph true opsPolygonHull [0, 1, 2] none =
      .ok (some (opsPolygonHull.convexHullPts [0, 1, 2])) :=
  (claim_C6_concave_small_amended opsPolygonHull [0, 1, 2] none (by decide)
    (by decide)).1 rfl rfl

theorem concave_large_eval {π α : Type} [Inhabited α] (ops : ConcaveOps π α)
    (pts : List π) {a : ℚ} (h1 : ¬ pts.length = 0) (h4 : ¬ pts.length < 4)
    (ha : 0 < a) (hne : (ops.alphashapeOf pts a).is_empty = false) :
    concave_isochrone_from_subgraph true ops pts (some a) =
      match to_polygon ops pts (ops.alphashapeOf pts a) with
      | none => .ok none
      | some poly =>
        if 0 < (ops.convexHullPts pts).area ∧
            poly.area < (0.05 : ℚ) * (ops.convexHullPts pts).area then
          .ok (to_polygon ops pts (ops.convexHullPts pts))
        else .ok (some poly) := by
  unfold concave_isochrone_from_subgraph
  dsimp only
  rw [if_neg (by simp), if_neg h1, if_neg h4, if_neg (not_le_of_gt ha),
    if_neg (by simp [hne])]

/-- C7: in concave mode on the alpha-shape path, the result is the convex
hull exactly when the guard fires (positive hull area and alpha-shape area
below 5% of it), and the normalized alpha-shape polygon otherwise. -/
theorem claim_C7_sliver_guard {π α : Type} [Inhabited α] (ops : ConcaveOps π α)
    (pts : List π) {a : ℚ} (h4 : 4 ≤ pts.length) (ha : 0 < a)
    (hne : (ops.alphashapeOf pts a).is_empty = false)
    {poly : SGeom α} (hpoly : to_polygon ops pts (ops.alphashapeOf pts a) = some poly)
    (hconv : (ops.convexHullPts pts).geom_type = "Polygon")
    (hcne : (ops.convexHullPts pts).is_empty = false) :
    ((0 < (ops.convexHullPts pts).area ∧
        poly.area < (0.05 : ℚ) * (ops.convexHullPts pts).area) →
      concave_isochrone_from_subgraph true ops pts (some a) =
        .ok (some (ops.convexHullPts pts))) ∧
    (¬ (0 < (ops.convexHullPts pts).area ∧
        poly.area < (0.05 : ℚ) * (ops.convexHullPts pts).area) →
      concave_isochrone_from_subgraph true ops pts (some a) = .ok (some poly)) := by
  have h1 : ¬ pts.length = 0 := by omega
  have h4' : ¬ pts.length < 4 := by omega
  rw [concave_large_eval ops pts h1 h4' ha hne, hpoly]
  constructor
  · intro hg
    show (if 0 < (ops.convexHullPts pts).area ∧
        poly.area < (0.05 : ℚ) * (ops.convexHullPts pts).area then
        Except.ok (to_polygon ops pts (ops.convexHullPts pts))
      else Except.ok (some poly)) = Except.ok (some (ops.convexHullPts pts))
    rw [if_pos hg, to_polygon_polygon ops pts hcne hconv]
  · intro hg
    show (if 0 < (ops.convexHullPts pts).area ∧
        poly.area < (0.05 : ℚ) * (ops.convexHullPts pts).area then
        Except.ok (to_polygon ops pts (ops.convexHullPts pts))
      else Except.ok (some poly)) = Except.ok (some poly)
    rw [if_neg hg]

theorem claim_C7_sliver_guard_witness :
    concave_isochrone_from_subgraph true opsPolygonHull [0, 1, 2, 3] (some 1) =
      .ok (some (SGeom.mk "Polygon" false 50 1 [])) :=
  (claim_C7_sliver_guard opsPolygonHull [0, 1, 2, 3] (by decide) (by decide) rfl rfl
    rfl rfl).2 (fun h => absurd h.1 (by decide))

/-- C3: snapping rejects with a SnapFailure exactly when the nearest-node
distance strictly exceeds the tolerance; a distance equal to the tolerance
(or below) is accepted and returns the indexed node key. -/
theorem claim_C3_snap_tolerance_boundary {ν W : Type} [Inhabited ν] [LinearOrder W]
    (query : W × Nat) (max_snap_dist : W) (node_keys : List ν) :
    (nearest_node_id query max_snap_dist node_keys = .error .tooFar ↔
      max_snap_dist < query.1) ∧
    (query.1 ≤ max_snap_dist →
      nearest_node_id query max_snap_dist node_keys =
        .ok (node_keys.getD query.2 default)) := by
  constructor
  · unfold nearest_node_id
    constructor
    · intro h
      by_contra hc
      rw [if_neg hc] at h
      exact Except.noConfusion h
    · intro h
      rw [if_pos h]
  · intro h
    unfold nearest_node_id
    rw [if_neg (not_lt_of_ge h)]

theorem claim_C3_snap_tolerance_boundary_witness :
    nearest_node_id ((5 : ℤ), 0) 5 [(3 : ℤ)] = .ok 3 ∧
    nearest_node_id ((6 : ℤ), 0) 5 [(3 : ℤ)] = .error .tooFar :=
  ⟨(claim_C3_snap_tolerance_boundary ((5 : ℤ), 0) 5 [(3 : ℤ)]).2 (by decide),
   (claim_C3_snap_tolerance_boundary ((6 : ℤ), 0) 5 [(3 : ℤ)]).1.mpr (by decide)⟩

/-- C9: when concave mode is requested and the alpha-shape capability is
absent, the run fails up front with the configuration error — for every
possible downstream state, so no per-origin work can influence or follow
it — and the library-level concave routine itself refuses outright. -/
theorem claim_C9_concave_missing_config_error {π α : Type} [Inhabited α]
    (distances_m : List ℚ) (hd : distances_m ≠ []) :
    (∀ (roadsAndGraphOk crsOk : Bool) (computed : Option (List Nat)),
      run_isochrone_computation true distances_m "concave" false roadsAndGraphOk
        crsOk computed = .errorConcaveMissing) ∧
    (∀ (ops : ConcaveOps π α) (pts : List π) (alpha : Option ℚ),
      concave_isochrone_from_subgraph false ops pts alpha =
        .error .alphashapeMissing) := by
  constructor
  · intro roadsAndGraphOk crsOk computed
    unfold run_isochrone_computation
    rw [if_neg (by simp), if_neg (by simp [List.isEmpty_iff, hd]),
      if_pos ⟨rfl, rfl⟩]
  · intro ops pts alpha
    unfold concave_isochrone_from_subgraph
    rw [if_pos rfl]

theorem claim_C9_concave_missing_config_error_witness :
    run_isochrone_computation true [500] "concave" false true true
      (some [1, 2, 3]) = .errorConcaveMissing ∧
    concave_isochrone_from_subgraph false opsPolygonHull [0] none =
      .error .alphashapeMissing :=
  ⟨(claim_C9_concave_missing_config_error (π := Nat) (α := Nat) [500]
      (by simp)).1 true true (some [1, 2, 3]),
   (claim_C9_concave_missing_config_error [500] (by simp)).2 opsPolygonHull [0] none⟩

/-- C1: on a well-formed graph with nonnegative edge lengths and positive
thresholds `d ≤ dmax`, filtering the distance map of the single max-cutoff
traversal to `distance ≤ d` yields exactly — same node set and same
distance values — the map of an independent traversal run with cutoff `d`,
so the multi-distance path never needs to re-run the search per
threshold. -/
theorem claim_C1_single_traversal_equivalence {ν W : Type} [DecidableEq ν]
    [LinearOrderedAddCommMonoid W] (g : NXGraph ν W) (s : ν) (d dmax : W)
    (hwf : ∀ e ∈ g.edges, e.1 ∈ g.nodes ∧ e.2.1 ∈ g.nodes)
    (hnn : ∀ e ∈ g.edges, 0 ≤ e.2.2) (hd0 : 0 ≤ d) (hdm : d ≤ dmax) :
    (∀ v, alookup v (filterLE (single_source_dijkstra_path_length g s dmax) d) =
      alookup v (single_source_dijkstra_path_length g s d)) ∧
    (∀ v, v ∈ nodes_within (single_source_dijkstra_path_length g s dmax) d ↔
      v ∈ (single_source_dijkstra_path_length g s d).map Prod.fst) := by
  refine ⟨sssp_filter_eq g s hwf hnn hd0 hdm, ?_⟩
  intro v
  have h := sssp_filter_eq g s hwf hnn hd0 hdm v
  have hnw : nodes_within (single_source_dijkstra_path_length g s dmax) d =
      (filterLE (single_source_dijkstra_path_length g s dmax) d).map Prod.fst := rfl
  rw [hnw, ← alookup_isSome_iff_mem_keys, ← alookup_isSome_iff_mem_keys, h]

theorem claim_C1_single_traversal_equivalence_witness :
    (0 : ℤ) ≤ 6 ∧ (6 : ℤ) ≤ 100 ∧
    alookup 2 (filterLE (single_source_dijkstra_path_length
      (NXGraph.mk [0, 1, 2] [(0, 1, (5 : ℤ)), (1, 2, 7)]) 0 100) 6) =
      alookup 2 (single_source_dijkstra_path_length
        (NXGraph.mk [0, 1, 2] [(0, 1, (5 : ℤ)), (1, 2, 7)]) 0 6) :=
  ⟨by decide, by decide,
   (claim_C1_single_traversal_equivalence
      (NXGraph.mk [0, 1, 2] [(0, 1, (5 : ℤ)), (1, 2, 7)]) 0 6 100
      (by decide) (by decide) (by decide) (by decide)).1 2⟩

/-- C2: for a fixed graph and origin, the node sets derived from the single
max-cutoff distance map at thresholds `d1 < d2` are ordered by inclusion:
the `distance ≤ d1` filter is contained in the `distance ≤ d2` filter. -/
theorem claim_C2_threshold_monotonicity {ν W : Type} [DecidableEq ν]
    [LinearOrderedAddCommMonoid W] (g : NXGraph ν W) (s : ν) (dmax d1 d2 : W)
    (h12 : d1 < d2) :
    ∀ v, v ∈ nodes_within (single_source_dijkstra_path_length g s dmax) d1 →
      v ∈ nodes_within (single_source_dijkstra_path_length g s dmax) d2 := by
  intro v hv
  unfold nodes_within at hv ⊢
  obtain ⟨p, hp, rfl⟩ := List.mem_map.mp hv
  obtain ⟨hpm, hple⟩ := List.mem_filter.mp hp
  refine List.mem_map.mpr ⟨p, List.mem_filter.mpr ⟨hpm, ?_⟩, rfl⟩
  simp only [decide_eq_true_eq] at hple ⊢
  exact le_trans hple (le_of_lt h12)

theorem claim_C2_threshold_monotonicity_witness :
    (5 : ℤ) < 7 ∧ (1 : Nat) ∈ nodes_within (single_source_dijkstra_path_length
      (NXGraph.mk [0, 1, 2] [(0, 1, (5 : ℤ)), (1, 2, 7)]) 0 100) 7 :=
  ⟨by decide,
   claim_C2_threshold_monotonicity
     (NXGraph.mk [0, 1, 2] [(0, 1, (5 : ℤ)), (1, 2, 7)]) 0 100 5 7 (by decide) 1
     (by decide)⟩

/-- C4: graph construction skips null geometries without failing,
decomposes each geometry into its simple parts, creates one node per
distinct endpoint coordinate (exact equality), inserts for every
consecutive coordinate pair an undirected edge whose weight is the
Euclidean distance between the pair, and yields the empty graph — not an
error — on empty or all-null input. -/
theorem claim_C4_graph_construction {R : Type} [LinearOrderedCommRing R]
    (segLen : R × R → R × R → R) (roads : List (Option (LineGeom (R × R))))
    (hsym : ∀ p ∈ segmentsOf roads, segLen p.1 p.2 = segLen p.2 p.1)
    (hE : ∀ p ∈ segmentsOf roads,
      0 ≤ segLen p.1 p.2 ∧ (segLen p.1 p.2) ^ 2 = sqDist p.1 p.2) :
    (build_graph_from_roads segLen roads =
      build_graph_from_roads segLen ((roads.filterMap id).map some)) ∧
    ((∀ r ∈ roads, r = none) → build_graph_from_roads segLen roads = ⟨[], []⟩) ∧
    (∀ x, x ∈ (build_graph_from_roads segLen roads).nodes ↔
      ∃ p ∈ segmentsOf roads, x = p.1 ∨ x = p.2) ∧
    (build_graph_from_roads segLen roads).nodes.Nodup ∧
    (∀ p ∈ segmentsOf roads, ∃ w,
      edgeWeight (build_graph_from_roads segLen roads) p.1 p.2 = some w ∧
      0 ≤ w ∧ w ^ 2 = sqDist p.1 p.2) ∧
    (∀ e ∈ (build_graph_from_roads segLen roads).edges,
      ((e.1, e.2.1) ∈ segmentsOf roads ∨ (e.2.1, e.1) ∈ segmentsOf roads) ∧
        e.2.2 = segLen e.1 e.2.1) := by
  obtain ⟨hnodes, hnodup, hweights, hsound⟩ := build_graph_spec segLen roads hsym
  refine ⟨build_graph_skips_null segLen roads, build_graph_all_null segLen roads,
    hnodes, hnodup, ?_, hsound⟩
  intro p hp
  exact ⟨segLen p.1 p.2, hweights p hp, (hE p hp).1, (hE p hp).2⟩

theorem claim_C4_graph_construction_witness :
    ∃ w, edgeWeight (build_graph_from_roads (fun _ _ => (5 : ℤ))
        [some (LineGeom.line [((0 : ℤ), (0 : ℤ)), (3, 4)]), none]) (0, 0) (3, 4) =
      some w ∧ 0 ≤ w ∧ w ^ 2 = sqDist ((0 : ℤ), (0 : ℤ)) (3, 4) :=
  (claim_C4_graph_construction (fun _ _ => (5 : ℤ))
    [some (LineGeom.line [((0 : ℤ), (0 : ℤ)), (3, 4)]), none]
    (by decide) (by decide)).2.2.2.2.1 ((0, 0), (3, 4)) (by decide)

/-! ### Record and warning bookkeeping of the multi-distance loop -/

theorem getD_map_const_none {A γ : Type} (l : List A) (jd : Nat) :
    (l.map fun _ => (none : Option γ)).getD jd none = none := by
  rw [List.getD_eq_getElem?_getD, List.getElem?_map]
  cases l[jd]? <;> rfl

theorem mem_zip_range_iff {β : Type} {l : List β} {k : Nat} {b : β} :
    ((k, b) ∈ (List.range l.length).zip l) ↔
      ∃ h : k < l.length, l[k] = b := by
  constructor
  · intro h
    rw [List.mem_iff_getElem] at h
    obtain ⟨idx, hidx, heq⟩ := h
    have hidx' : idx < l.length := by
      simp only [List.length_zip, List.length_range, Nat.min_self] at hidx
      exact hidx
    rw [List.getElem_zip, List.getElem_range] at heq
    have hk : idx = k := congrArg Prod.fst heq
    subst hk
    exact ⟨hidx', congrArg Prod.snd heq⟩
  · rintro ⟨h, rfl⟩
    rw [List.mem_iff_getElem]
    refine ⟨k, ?_, ?_⟩
    · simp only [List.length_zip, List.length_range, Nat.min_self]
      exact h
    · rw [List.getElem_zip]
      rw [List.getElem_range]

theorem recordsForD_mem_iff {W γ : Type} (isE : γ → Bool) (d : W)
    (contours : List (Option γ)) (dd : W) (j : Nat) (c : γ) :
    ((dd, j, c) ∈ recordsForD isE d contours ↔
      (dd = d ∧ isE c = false ∧ ∃ h : j < contours.length, contours[j] = some c)) := by
  unfold recordsForD
  rw [List.mem_filterMap]
  constructor
  · rintro ⟨⟨k, oc⟩, hmem, hf⟩
    cases oc with
    | none => simp at hf
    | some c' =>
      dsimp at hf
      by_cases he : isE c' = true
      · rw [if_pos he] at hf
        simp at hf
      · rw [if_neg he] at hf
        have h1 : d = dd ∧ k = j ∧ c' = c := by
          have := Option.some.injEq .. ▸ hf
          exact ⟨congrArg Prod.fst this,
            congrArg (fun x => x.2.1) this, congrArg (fun x => x.2.2) this⟩
        obtain ⟨rfl, rfl, rfl⟩ := h1
        obtain ⟨hk, hck⟩ := mem_zip_range_iff.mp hmem
        exact ⟨rfl, Bool.eq_false_iff.mpr he, hk, hck⟩
  · rintro ⟨rfl, he, hj, hcj⟩
    refine ⟨(j, some c), mem_zip_range_iff.mpr ⟨hj, hcj⟩, ?_⟩
    dsimp
    rw [if_neg (by simp [he])]

/-- Membership in the output record collection of the multi-band loop,
characterized by the band index and the per-origin contour slot. -/
theorem compute_multi_records_mem_iff {ν W γ : Type} [DecidableEq ν] [DecidableEq W]
    [LinearOrderedAddCommMonoid W] [Inhabited ν]
    (g : NXGraph ν W) (node_keys : List ν) (max_snap_dist : W)
    (snaps : List (W × Nat)) (distances_m : List W)
    (mkContour : List ν → Option γ) (isEmptyG : γ → Bool)
    (d : W) (j : Nat) (c : γ) :
    ((d, j, c) ∈ (compute_multi_distance_isochrones_core g node_keys max_snap_dist
        snaps distances_m mkContour isEmptyG).1 ↔
      ∃ jd : Nat, ∃ _ : jd < (sortedDistances distances_m).length,
        d = (sortedDistances distances_m).getD jd 0 ∧ isEmptyG c = false ∧
        j < snaps.length ∧
        (processPoint g node_keys max_snap_dist (sortedDistances distances_m)
          (pymaxD (sortedDistances distances_m) 0) mkContour
          (snaps.getD j (0, 0)) j).1.getD jd none = some c) := by
  unfold compute_multi_distance_isochrones_core
  dsimp only
  rw [List.mem_flatten]
  constructor
  · rintro ⟨L, hL, hmem⟩
    rw [List.mem_iff_getElem] at hL
    obtain ⟨jd, hjd0, heq⟩ := hL
    have hjd : jd < (sortedDistances distances_m).length := by
      rw [List.length_map, List.length_range] at hjd0
      exact hjd0
    rw [List.getElem_map, List.getElem_range] at heq
    subst heq
    obtain ⟨rfl, hemp, hj, hcj⟩ := (recordsForD_mem_iff _ _ _ _ _ _).mp hmem
    rw [List.length_map, List.length_map, List.length_range] at hj
    refine ⟨jd, hjd, rfl, hemp, hj, ?_⟩
    rw [List.getElem_map, List.getElem_map, List.getElem_range] at hcj
    exact hcj
  · rintro ⟨jd, hjd, rfl, hemp, hj, hval⟩
    refine ⟨recordsForD isEmptyG ((sortedDistances distances_m).getD jd 0)
      (((List.range snaps.length).map fun i =>
        processPoint g node_keys max_snap_dist (sortedDistances distances_m)
          (pymaxD (sortedDistances distances_m) 0) mkContour
          (snaps.getD i (0, 0)) i).map fun r => r.1.getD jd none), ?_, ?_⟩
    · rw [List.mem_iff_getElem]
      refine ⟨jd, ?_, ?_⟩
      · rw [List.length_map, List.length_range]
        exact hjd
      · rw [List.getElem_map, List.getElem_range]
    · rw [recordsForD_mem_iff]
      refine ⟨rfl, hemp, ?_, ?_⟩
      · rw [List.length_map, List.length_map, List.length_range]
        exact hj
      · rw [List.getElem_map, List.getElem_map, List.getElem_range]
        exact hval

theorem processPoint_failed {ν W γ : Type} [DecidableEq ν]
    [LinearOrderedAddCommMonoid W] [Inhabited ν] (g : NXGraph ν W)
    (node_keys : List ν) (max_snap_dist : W) (distances_sorted : List W)
    (dmax : W) (mkContour : List ν → Option γ) (snap : W × Nat) (i : Nat)
    (hfail : (processPoint g node_keys max_snap_dist distances_sorted dmax
      mkContour snap i).2 ≠ []) :
    (processPoint g node_keys max_snap_dist distances_sorted dmax
      mkContour snap i).1 = distances_sorted.map fun _ => none := by
  unfold processPoint at hfail ⊢
  cases hnn : nearest_node_id snap max_snap_dist node_keys with
  | error e => rfl
  | ok center =>
    rw [hnn] at hfail
    dsimp only at hfail ⊢
    cases hE : (single_source_dijkstra_path_length g center dmax).isEmpty with
    | true => rfl
    | false =>
      rw [hE] at hfail
      simp at hfail

theorem processPoint_ok_no_warning {ν W γ : Type} [DecidableEq ν]
    [LinearOrderedAddCommMonoid W] [Inhabited ν] (g : NXGraph ν W)
    (node_keys : List ν) (max_snap_dist : W) (distances_sorted : List W)
    (dmax : W) (mkContour : List ν → Option γ) (snap : W × Nat) (i : Nat)
    (center : ν)
    (hsnap : nearest_node_id snap max_snap_dist node_keys = .ok center) :
    (processPoint g node_keys max_snap_dist distances_sorted dmax
      mkContour snap i).2 = [] := by
  unfold processPoint
  rw [hsnap]
  dsimp only
  rw [if_neg (by simp [List.isEmpty_iff, sssp_ne_nil g center dmax])]

/-- C8: a snap failure or a no-reachable-nodes failure at one origin makes
every threshold slot for that origin empty, so no output record carries
that origin's index; the failure is accumulated in the warning list rather
than aborting the run; records of every other origin are exactly those the
same pipeline produces whatever snap data the failed origin had; and every
surviving record holds a non-empty geometry (failed or empty slots are
dropped, not padded). -/
theorem claim_C8_per_origin_skip {ν W γ : Type} [DecidableEq ν] [DecidableEq W]
    [LinearOrderedAddCommMonoid W] [Inhabited ν]
    (g : NXGraph ν W) (node_keys : List ν) (max_snap_dist : W)
    (snaps snaps' : List (W × Nat)) (distances_m : List W)
    (mkContour : List ν → Option γ) (isEmptyG : γ → Bool) (i : Nat)
    (hi : i < snaps.length)
    (hfail : (processPoint g node_keys max_snap_dist (sortedDistances distances_m)
      (pymaxD (sortedDistances distances_m) 0) mkContour (snaps.getD i (0, 0)) i).2 ≠ [])
    (hlen : snaps'.length = snaps.length)
    (hagree : ∀ j, j ≠ i → snaps'.getD j (0, 0) = snaps.getD j (0, 0)) :
    (∀ d c, (d, i, c) ∉ (compute_multi_distance_isochrones_core g node_keys
        max_snap_dist snaps distances_m mkContour isEmptyG).1) ∧
    (∀ w ∈ (processPoint g node_keys max_snap_dist (sortedDistances distances_m)
        (pymaxD (sortedDistances distances_m) 0) mkContour (snaps.getD i (0, 0)) i).2,
      w ∈ (compute_multi_distance_isochrones_core g node_keys
        max_snap_dist snaps distances_m mkContour isEmptyG).2) ∧
    (∀ d j c, (d, j, c) ∈ (compute_multi_distance_isochrones_core g node_keys
        max_snap_dist snaps distances_m mkContour isEmptyG).1 → isEmptyG c = false) ∧
    (∀ d j c, j ≠ i →
      ((d, j, c) ∈ (compute_multi_distance_isochrones_core g node_keys
          max_snap_dist snaps distances_m mkContour isEmptyG).1 ↔
        (d, j, c) ∈ (compute_multi_distance_isochrones_core g node_keys
          max_snap_dist snaps' distances_m mkContour isEmptyG).1)) := by
  refine ⟨?_, ?_, ?_, ?_⟩
  · intro d c hmem
    rw [compute_multi_records_mem_iff] at hmem
    obtain ⟨jd, hjd, -, -, -, hval⟩ := hmem
    rw [processPoint_failed g node_keys max_snap_dist (sortedDistances distances_m)
      (pymaxD (sortedDistances distances_m) 0) mkContour (snaps.getD i (0, 0)) i hfail,
      getD_map_const_none] at hval
    exact Option.noConfusion hval
  · intro w hw
    unfold compute_multi_distance_isochrones_core
    dsimp only
    rw [List.mem_flatten]
    refine ⟨(processPoint g node_keys max_snap_dist (sortedDistances distances_m)
      (pymaxD (sortedDistances distances_m) 0) mkContour (snaps.getD i (0, 0)) i).2,
      ?_, hw⟩
    rw [List.mem_iff_getElem]
    refine ⟨i, ?_, ?_⟩
    · rw [List.length_map, List.length_map, List.length_range]
      exact hi
    · rw [List.getElem_map, List.getElem_map, List.getElem_range]
  · intro d j c hmem
    rw [compute_multi_records_mem_iff] at hmem
    obtain ⟨-, -, -, hemp, -⟩ := hmem
    exact hemp
  · intro d j c hne
    rw [compute_multi_records_mem_iff, compute_multi_records_mem_iff, hlen,
      hagree j hne]

theorem claim_C8_per_origin_skip_witness :
    0 < snapsC8.length ∧
    (processPoint gC8 [0, 1] 10 (sortedDistances [(6 : ℤ)])
        (pymaxD (sortedDistances [(6 : ℤ)]) 0) mkLenC8 (snapsC8.getD 0 (0, 0)) 0).2 ≠ [] ∧
    ((∀ d c, (d, 0, c) ∉ (compute_multi_distance_isochrones_core gC8 [0, 1] 10
        snapsC8 [(6 : ℤ)] mkLenC8 isZeroC8).1) ∧
     (∀ w ∈ (processPoint gC8 [0, 1] 10 (sortedDistances [(6 : ℤ)])
        (pymaxD (sortedDistances [(6 : ℤ)]) 0) mkLenC8 (snapsC8.getD 0 (0, 0)) 0).2,
       w ∈ (compute_multi_distance_isochrones_core gC8 [0, 1] 10
        snapsC8 [(6 : ℤ)] mkLenC8 isZeroC8).2) ∧
     (∀ d j c, (d, j, c) ∈ (compute_multi_distance_isochrones_core gC8 [0, 1] 10
        snapsC8 [(6 : ℤ)] mkLenC8 isZeroC8).1 → isZeroC8 c = false) ∧
     (∀ d j c, j ≠ 0 →
       ((d, j, c) ∈ (compute_multi_distance_isochrones_core gC8 [0, 1] 10
          snapsC8 [(6 : ℤ)] mkLenC8 isZeroC8).1 ↔
        (d, j, c) ∈ (compute_multi_distance_isochrones_core gC8 [0, 1] 10
          snapsC8' [(6 : ℤ)] mkLenC8 isZeroC8).1))) :=
  ⟨by decide, by decide,
    claim_C8_per_origin_skip gC8 [0, 1] 10 snapsC8 snapsC8' [(6 : ℤ)] mkLenC8
      isZeroC8 0 (by decide) (by decide) (by decide)
      (fun j hj => by
        match j with
        | 0 => exact absurd rfl hj
        | 1 => rfl
        | n + 2 => rfl)⟩

/-- C10: once snapping succeeds, the traversal distance dict always
contains the snapped origin itself at distance 0 — the library finalizes
the source before the cutoff test — so the dict is never empty and the
branch that reports no reachable nodes cannot fire: a successfully
snapped origin contributes no warning at all. -/
theorem claim_C10_no_path_failure_unreachable {ν W γ : Type} [DecidableEq ν]
    [DecidableEq W] [LinearOrderedAddCommMonoid W] [Inhabited ν]
    (g : NXGraph ν W) (node_keys : List ν) (max_snap_dist : W)
    (distances_m : List W) (mkContour : List ν → Option γ)
    (snap : W × Nat) (i : Nat) (center : ν) (cutoff : W)
    (hsnap : nearest_node_id snap max_snap_dist node_keys = .ok center)
    (hpos : 0 < cutoff) :
    alookup center (single_source_dijkstra_path_length g center cutoff) = some 0 ∧
    single_source_dijkstra_path_length g center cutoff ≠ [] ∧
    (processPoint g node_keys max_snap_dist (sortedDistances distances_m)
      (pymaxD (sortedDistances distances_m) 0) mkContour snap i).2 = [] :=
  ⟨sssp_lookup_source g center cutoff, sssp_ne_nil g center cutoff,
    processPoint_ok_no_warning g node_keys max_snap_dist
      (sortedDistances distances_m) (pymaxD (sortedDistances distances_m) 0)
      mkContour snap i center hsnap⟩

theorem claim_C10_no_path_failure_unreachable_witness :
    nearest_node_id ((0 : ℤ), 0) 10 [0, 1] = .ok 0 ∧ (0 : ℤ) < 5 ∧
    (alookup 0 (single_source_dijkstra_path_length gC8 0 (5 : ℤ)) = some 0 ∧
     single_source_dijkstra_path_length gC8 0 (5 : ℤ) ≠ [] ∧
     (processPoint gC8 [0, 1] 10 (sortedDistances [(6 : ℤ)])
       (pymaxD (sortedDistances [(6 : ℤ)]) 0) mkLenC8 ((0 : ℤ), 0) 0).2 = []) :=
  ⟨rfl, by decide,
    claim_C10_no_path_failure_unreachable gC8 [0, 1] 10 [(6 : ℤ)] mkLenC8
      ((0 : ℤ), 0) 0 0 (5 : ℤ) rfl (by decide)⟩
